import Mathlib

/-!
# Verification of the surveillance coverage / signal-detection engine

Shallow embedding of the aggregation engine of the Lassa-fever dashboard:

* `lib/data.ts` — `fetchWeeklyCoverage` and its helpers (`getIsoWeekStart`,
  `toInteger`, `toNumber`), including the ISO-week walk, the per-week /
  per-state / per-state-per-week accumulation maps, `topContributors`,
  `fastestGrowers`, the alert flags and the notable signals;
* `lib/utils.ts` — `calculatePercentageChange`;
* `app/api/report/route.ts` — the per-reported-week averaging denominators.

Modelling conventions:

* Calendar dates are rata-die day numbers (`ℤ`, day 1 = 0001-01-01 of the
  proleptic Gregorian calendar, which is a Monday).  The `date-fns`
  operations `addDays`/`addWeeks` become integer addition, `isAfter`/
  `isBefore` become `<`, `differenceInDays` becomes subtraction, and
  `startOfISOWeek` floors to the preceding Monday.  `getISOWeek` /
  `getISOWeekYear` are implemented exactly as in `date-fns` (first-Thursday
  rule via January 4), with the civil year obtained by an exact
  days-to-civil conversion.
* `new Date(startISO)` parsing is abstracted: the engine receives
  `Option ℤ` (with `none` standing for an unparseable date / `NaN`).
* JS numbers carried by rows are modelled as `ℤ` (the database columns are
  integer counts; `toInteger` on an already-numeric value is the identity)
  and derived ratios as `ℚ`.  `x.toFixed(3)` on a non-negative value is
  decimal rounding half-up to thousandths, modelled exactly on `ℚ`.
* Week keys `"YYYY-Www"` are modelled as pairs `(year, week)`; the string
  rendering is injective, and for the canonical regime (4-digit years,
  2-digit zero-padded weeks) `localeCompare` ordering coincides with the
  lexicographic order on the pairs used here.
* JS `Map`s are insertion-ordered association lists; `Map.set` on an
  existing key updates in place, otherwise appends.  `Array.prototype.sort`
  (stable since ES2019) with a total-preorder comparator is modelled by
  `List.insertionSort`, which is stable with ties kept in original order.
-/

/-! ## ISO calendar arithmetic (rata-die day numbers) -/

/-- Days strictly before January 1 of Gregorian year `y` (proleptic), so that
January 1 of year `y` has rata-die number `daysBeforeYear y + 1`. -/
def daysBeforeYear (y : ℤ) : ℤ :=
  365 * (y - 1) + (y - 1) / 4 - (y - 1) / 100 + (y - 1) / 400

/-- Rata-die number of January 4 of Gregorian year `y`. -/
def jan4 (y : ℤ) : ℤ := daysBeforeYear y + 4

/-- Gregorian civil year containing rata-die day `d` (exact days-to-civil
conversion, integer arithmetic only). -/
def civilYear (d : ℤ) : ℤ :=
  let z := d + 305
  let era := z / 146097
  let doe := z - era * 146097
  let yoe := (doe - doe / 1460 + doe / 36524 - doe / 146096) / 365
  let y := yoe + era * 400
  let doy := doe - (365 * yoe + yoe / 4 - yoe / 100)
  let mp := (5 * doy + 2) / 153
  if mp < 10 then y else y + 1

/-- `startOfISOWeek`: the Monday of the ISO week containing day `d`
(day 1 = 0001-01-01 is a Monday, so Mondays are exactly the days
`d ≡ 1 [ZMOD 7]`). -/
def sow (d : ℤ) : ℤ := d - (d - 1) % 7

/-- `startOfISOWeekYear y`: Monday of ISO week 1 of ISO week-year `y`
(the week containing January 4), as built internally by `date-fns`
(`setFullYear`, no two-digit-year adjustment). -/
def sowYear (y : ℤ) : ℤ := sow (jan4 y)

/-- `date-fns` `getISOWeekYear`. -/
def isoWeekYear (d : ℤ) : ℤ :=
  let y := civilYear d
  if sowYear (y + 1) ≤ d then y + 1
  else if sowYear y ≤ d then y
  else y - 1

/-- `date-fns` `getISOWeek`. -/
def isoWeek (d : ℤ) : ℤ := (sow d - sowYear (isoWeekYear d)) / 7 + 1

/-- A week key `"YYYY-Www"`, modelled as the pair of integers it renders. -/
structure WeekKey where
  year : ℤ
  week : ℤ
deriving DecidableEq, Repr

/-- The canonical week key of the week containing day `d`. -/
def isoKey (d : ℤ) : WeekKey := ⟨isoWeekYear d, isoWeek d⟩

/-- The actual calendar start (Monday) of the ISO week a key denotes, used as
the chronological order on keys. -/
def keyStart (k : WeekKey) : ℤ := sowYear k.year + 7 * (k.week - 1)

/-- The two-digit-year quirk of the JS `Date(year, month, day)` constructor:
years 0..99 are interpreted as 1900..1999. -/
def jsYear (y : ℤ) : ℤ := if 0 ≤ y ∧ y ≤ 99 then y + 1900 else y

/-- `getIsoWeekStart` from `lib/data.ts`: Monday of week 1 of `year` located
via the first Thursday (January 4, through `new Date(year, 0, 4)`), plus
`week - 1` weeks. -/
def getIsoWeekStart (year week : ℤ) : ℤ := sow (jan4 (jsYear year)) + 7 * (week - 1)

/-! ## Week walk -/

/-- One step of the `while (!isAfter(cursor, endDate))` loops: collect the
weekly cursor positions.  Structural recursion on an explicit fuel so that
concrete instances reduce by `decide`/`rfl`. -/
def walkGo (e : ℤ) : ℕ → ℤ → List ℤ
  | 0, _ => []
  | fuel + 1, cur => if cur ≤ e then cur :: walkGo e fuel (cur + 7) else []

/-- The list of weekly cursors from `cur` to `e` inclusive (step 7 days). -/
def weekWalk (cur e : ℤ) : List ℤ := walkGo e (e + 7 - cur).toNat cur

/-! ## Data model -/

/-- The three summed metrics. -/
structure Counts where
  suspected : ℤ
  confirmed : ℤ
  deaths : ℤ
deriving DecidableEq, Repr

def Counts.zero : Counts := ⟨0, 0, 0⟩

def Counts.add (a b : Counts) : Counts :=
  ⟨a.suspected + b.suspected, a.confirmed + b.confirmed, a.deaths + b.deaths⟩

/-- A raw database row as selected by `fetchWeeklyCoverage`
(`full_year, week, states, suspected, confirmed, deaths`, all nullable). -/
structure Row where
  full_year : Option ℤ
  week : Option ℤ
  states : Option String
  suspected : Option ℤ
  confirmed : Option ℤ
  deaths : Option ℤ
deriving DecidableEq, Repr

/-- `toNumber` from `lib/data.ts` applied to a nullable numeric column:
`toInteger` is the identity on numbers and `?? 0` maps null to 0. -/
def toNumber (v : Option ℤ) : ℤ := v.getD 0

def Row.counts (r : Row) : Counts :=
  ⟨toNumber r.suspected, toNumber r.confirmed, toNumber r.deaths⟩

/-- One entry of `weeklySeries` (`week_formatted` duplicates the key string
and is not modelled separately). -/
structure WeeklyEntry where
  week : WeekKey
  suspected : ℤ
  confirmed : ℤ
  deaths : ℤ
deriving DecidableEq, Repr

/-- One per-state total of the aggregation pass. -/
structure StateTotal where
  state : String
  suspected : ℤ
  confirmed : ℤ
  deaths : ℤ
deriving DecidableEq, Repr

/-- One entry of `topContributors` (`shareOfConfirmed` is optional). -/
structure Contributor where
  state : String
  suspected : ℤ
  confirmed : ℤ
  deaths : ℤ
  shareOfConfirmed : Option ℚ
deriving DecidableEq, Repr

/-- One entry of `fastestGrowers`. -/
structure Grower where
  state : String
  week : Option WeekKey
  weekOverWeekChange : ℤ
deriving DecidableEq, Repr

/-- The four alert flags; a key absent from the JS record reads as false. -/
structure AlertFlags where
  incompleteReporting : Bool
  sustainedGrowth : Bool
  sharpSpike : Bool
  elevatedDeaths : Bool
deriving DecidableEq, Repr

def AlertFlags.none : AlertFlags := ⟨false, false, false, false⟩

/-- The `notableSignals` strings, modelled by their (injectively rendered)
content. -/
inductive Signal where
  | missingReports (weeks : List WeekKey)
  | largestIncrease (delta : ℤ) (previousWeek currentWeek : WeekKey)
  | steepestDecline (delta : ℤ) (previousWeek currentWeek : WeekKey)
deriving DecidableEq, Repr

/-- The result record of `fetchWeeklyCoverage`. -/
structure CoverageResult where
  availableWeekLabels : List WeekKey
  weeklySeries : List WeeklyEntry
  missingWeekLabels : List WeekKey
  coverageRatioQ : Option ℚ
  totalWeeks : Option ℤ
  topContributors : List Contributor
  fastestGrowers : List Grower
  alertFlags : AlertFlags
  notableSignals : List Signal
deriving DecidableEq, Repr

/-- The neutral `emptyResult` of `fetchWeeklyCoverage`. -/
def emptyResult : CoverageResult :=
  ⟨[], [], [], Option.none, Option.none, [], [], AlertFlags.none, []⟩

/-! ## Insertion-ordered maps (JS `Map` / `Set`) -/

/-- JS `Set.add`: append if absent, keep insertion order. -/
def pushUnique [DecidableEq α] (x : α) (l : List α) : List α :=
  if x ∈ l then l else l ++ [x]

/-- `map.set(k, (map.get(k) ?? zero) + c)`: update the first occurrence in
place, else append. -/
def upsertAdd [DecidableEq κ] (k : κ) (c : Counts) :
    List (κ × Counts) → List (κ × Counts)
  | [] => [(k, Counts.add Counts.zero c)]
  | (k', v) :: rest =>
    if k' = k then (k', Counts.add v c) :: rest
    else (k', v) :: upsertAdd k c rest

/-- The nested per-state week map update of `stateWeeklyTotals`. -/
def nestedUpsertAdd (st : String) (k : WeekKey) (c : Counts) :
    List (String × List (WeekKey × Counts)) → List (String × List (WeekKey × Counts))
  | [] => [(st, upsertAdd k c [])]
  | (s, m) :: rest =>
    if s = st then (s, upsertAdd k c m) :: rest
    else (s, m) :: nestedUpsertAdd st k c rest

/-! ## `fetchWeeklyCoverage`: query filter and accumulation loop -/

/-- The database-side filters of the coverage query:
`.neq("states", "Total")` (which also drops NULL states),
`.in("full_year", yearsToFetch)` when non-empty, and
`.in("states", stateFilters)` when non-empty. -/
def queryKeep (yearsToFetch : List ℤ) (stateFilters : List String) (r : Row) : Bool :=
  (match r.states with
   | some st => st ≠ "Total"
   | none => false) &&
  (if yearsToFetch.isEmpty then true
   else match r.full_year with
     | some y => y ∈ yearsToFetch
     | none => false) &&
  (if stateFilters.isEmpty then true
   else match r.states with
     | some st => st ∈ stateFilters
     | none => false)

/-- The four accumulation maps built by the row loop. -/
structure AggState where
  availableWeeks : List WeekKey
  weeklyTotals : List (WeekKey × Counts)
  stateTotals : List (String × Counts)
  stateWeeklyTotals : List (String × List (WeekKey × Counts))
deriving Repr

def AggState.init : AggState := ⟨[], [], [], []⟩

/-- The body of `for (const row of data)` in `fetchWeeklyCoverage`:
skip null year/week, skip weeks not overlapping `[startDate, endDate]`,
then add the row to all four maps. -/
def aggStep (s e : ℤ) (st : AggState) (r : Row) : AggState :=
  match r.full_year, r.week with
  | some year, some week =>
    let weekStart := getIsoWeekStart year week
    let weekEnd := weekStart + 6
    if weekEnd < s ∨ e < weekStart then st
    else
      let key : WeekKey := ⟨year, week⟩
      let c := r.counts
      let stateName := r.states.getD "Unknown"
      { availableWeeks := pushUnique key st.availableWeeks
        weeklyTotals := upsertAdd key c st.weeklyTotals
        stateTotals := upsertAdd stateName c st.stateTotals
        stateWeeklyTotals := nestedUpsertAdd stateName key c st.stateWeeklyTotals }
  | _, _ => st

/-! ## Sort orders (`localeCompare` on canonical keys, numeric comparators) -/

/-- The `localeCompare` order of rendered week keys, which on the canonical
regime (4-digit years, 2-digit weeks) is the lexicographic order on
`(year, week)`. -/
def keyLE (a b : WeekKey) : Prop :=
  a.year < b.year ∨ (a.year = b.year ∧ a.week ≤ b.week)

instance : DecidableRel keyLE := fun a b => by
  unfold keyLE; infer_instance

instance : IsTotal WeekKey keyLE where
  total a b := by
    rcases lt_trichotomy a.year b.year with h | h | h
    · exact Or.inl (Or.inl h)
    · rcases le_total a.week b.week with hw | hw
      · exact Or.inl (Or.inr ⟨h, hw⟩)
      · exact Or.inr (Or.inr ⟨h.symm, hw⟩)
    · exact Or.inr (Or.inl h)

instance : IsTrans WeekKey keyLE where
  trans a b c hab hbc := by
    rcases hab with h | ⟨h, hw⟩ <;> rcases hbc with h' | ⟨h', hw'⟩
    · exact Or.inl (h.trans h')
    · exact Or.inl (h'.symm ▸ h)
    · exact Or.inl (h ▸ h')
    · exact Or.inr ⟨h.trans h', hw.trans hw'⟩

/-- Key order on map entries, as used to sort `weeklyTotals` and the
per-state week maps. -/
def entryKeyLE (a b : WeekKey × Counts) : Prop := keyLE a.1 b.1

instance : DecidableRel entryKeyLE := fun a b => by
  unfold entryKeyLE; infer_instance

instance : IsTotal (WeekKey × Counts) entryKeyLE :=
  ⟨fun a b => @IsTotal.total WeekKey keyLE _ a.1 b.1⟩

instance : IsTrans (WeekKey × Counts) entryKeyLE :=
  ⟨fun a b c hab hbc => @IsTrans.trans WeekKey keyLE _ a.1 b.1 c.1 hab hbc⟩

/-- The comparator `(a, b) => b.confirmed - a.confirmed`: descending by
confirmed count. -/
def confirmedGE (a b : StateTotal) : Prop := b.confirmed ≤ a.confirmed

instance : DecidableRel confirmedGE := fun a b => by
  unfold confirmedGE; infer_instance

instance : IsTotal StateTotal confirmedGE := ⟨fun a b => le_total b.confirmed a.confirmed⟩

instance : IsTrans StateTotal confirmedGE := ⟨fun _ _ _ hab hbc => le_trans hbc hab⟩

/-- The comparator `(a, b) => b.weekOverWeekChange - a.weekOverWeekChange`. -/
def changeGE (a b : Grower) : Prop := b.weekOverWeekChange ≤ a.weekOverWeekChange

instance : DecidableRel changeGE := fun a b => by
  unfold changeGE; infer_instance

instance : IsTotal Grower changeGE :=
  ⟨fun a b => le_total b.weekOverWeekChange a.weekOverWeekChange⟩

instance : IsTrans Grower changeGE := ⟨fun _ _ _ hab hbc => le_trans hbc hab⟩

/-! ## `toFixed(3)` rounding -/

/-- Floor of a rational, in kernel-reducible form (`Rat.floor_eq_div`). -/
def ratFloor (q : ℚ) : ℤ := q.num / (q.den : ℤ)

/-- `Number(x.toFixed(3))`: decimal rounding to 3 places, ties away from
zero for the non-negative values arising here (ECMAScript picks the larger
candidate on ties). -/
def round3 (q : ℚ) : ℚ := (ratFloor (q * 1000 + (1 / 2 : ℚ)) : ℚ) / 1000

/-! ## `fetchWeeklyCoverage`: derived outputs -/

/-- One step of the `maxDelta` / `targetWeek` loop of `fastestGrowers`:
update the running maximum (strictly greater wins, so the earliest maximal
week is kept); `none` models the initial `Number.NEGATIVE_INFINITY`. -/
def growthStep (acc : Option (ℤ × WeekKey))
    (pr : (WeekKey × Counts) × (WeekKey × Counts)) : Option (ℤ × WeekKey) :=
  let delta := pr.2.2.confirmed - pr.1.2.confirmed
  match acc with
  | some (m, wk) => if m < delta then some (delta, pr.2.1) else some (m, wk)
  | none => some (delta, pr.2.1)

/-- The per-state maximum week-over-week confirmed delta and the week where
it occurs, from a chronologically sorted week series (fewer than two weeks
yield `none`). -/
def bestGrowth (l : List (WeekKey × Counts)) : Option (ℤ × WeekKey) :=
  (l.zip l.tail).foldl growthStep none

/-- State of the global weekly-series scan (`consecutiveGrowth`,
`maxIncrease`, `maxDecrease`, and the sticky `sustainedGrowth` flag). -/
structure ScanState where
  consec : ℕ
  sustained : Bool
  maxInc : Option (ℤ × WeekKey × WeekKey)
  maxDec : Option (ℤ × WeekKey × WeekKey)
deriving Repr

def ScanState.init : ScanState := ⟨0, false, Option.none, Option.none⟩

/-- One step of the weekly-series scan over an adjacent pair
`(previous, current)`. -/
def scanStep (st : ScanState) (pr : WeeklyEntry × WeeklyEntry) : ScanState :=
  let delta := pr.2.confirmed - pr.1.confirmed
  if 0 < delta then
    { consec := st.consec + 1
      sustained := st.sustained || decide (2 ≤ st.consec + 1)
      maxInc :=
        match st.maxInc with
        | some (m, pw, cw) =>
          if m < delta then some (delta, pr.1.week, pr.2.week) else some (m, pw, cw)
        | none => some (delta, pr.1.week, pr.2.week)
      maxDec := st.maxDec }
  else
    { consec := 0
      sustained := st.sustained
      maxInc := st.maxInc
      maxDec :=
        match st.maxDec with
        | some (m, pw, cw) =>
          if delta < m then some (delta, pr.1.week, pr.2.week) else some (m, pw, cw)
        | none => some (delta, pr.1.week, pr.2.week) }

/-! ## `fetchWeeklyCoverage` assembled -/

/-- The weekly cursor positions shared by the `yearsToFetch` loop and the
`allWeekKeys` loop (both walk from `startOfISOWeek(startDate)` to
`endDate`). -/
def walkCursors (s e : ℤ) : List ℤ := weekWalk (sow s) e

/-- The `yearsToFetch` set (membership is all that is used). -/
def yearsToFetch (s e : ℤ) : List ℤ :=
  (walkCursors s e).map isoWeekYear ++ [isoWeekYear e]

/-- `stateFilters`: drop falsy entries and the `"All States"` sentinel. -/
def stateFiltersOf (states : List String) : List String :=
  states.filter (fun st => st ≠ "" ∧ st ≠ "All States")

/-- The accumulation maps over the post-query rows. -/
def aggregate (s e : ℤ) (states : List String) (db : List Row) : AggState :=
  (db.filter (queryKeep (yearsToFetch s e) (stateFiltersOf states))).foldl
    (aggStep s e) AggState.init

/-- `allWeekKeys`: the expected week-key sequence, walked with the
`includes` de-duplication guard. -/
def allWeekKeys (s e : ℤ) : List WeekKey :=
  (walkCursors s e).foldl (fun acc c => pushUnique (isoKey c) acc) []

/-- `availableWeekLabels`: the distinct keys present, sorted. -/
def availableWeekLabelsOf (avail : List WeekKey) : List WeekKey :=
  List.insertionSort keyLE avail

/-- `weeklySeries`: the per-week totals sorted by week key. -/
def weeklySeriesOf (wt : List (WeekKey × Counts)) : List WeeklyEntry :=
  (List.insertionSort entryKeyLE wt).map
    (fun p => WeeklyEntry.mk p.1 p.2.suspected p.2.confirmed p.2.deaths)

/-- `missingWeekLabels`: expected keys without data, in walk order. -/
def missingWeekLabelsOf (allKeys avail : List WeekKey) : List WeekKey :=
  allKeys.filter (fun k => ¬ k ∈ avail)

/-- `coverageRatio` before the `null` guard: rounded available / total. -/
def coverageRatioValue (availLen totalLen : ℕ) : ℚ :=
  round3 ((availLen : ℚ) / (totalLen : ℚ))

/-- The `stateTotals` map flattened into an array of records. -/
def stateTotalsArrayOf (st : List (String × Counts)) : List StateTotal :=
  st.map (fun p => StateTotal.mk p.1 p.2.suspected p.2.confirmed p.2.deaths)

/-- `totalConfirmedAllStates`: the share denominator, summed with `reduce`
over all (not only qualifying) state totals. -/
def totalConfirmedOf (sta : List StateTotal) : ℤ :=
  sta.foldl (fun acc it => acc + it.confirmed) 0

/-- `topContributors`: filter `confirmed > 0`, sort descending by
`confirmed`, take 3, annotate with the rounded share (omitted when the
denominator is not positive). -/
def topContributorsOf (sta : List StateTotal) : List Contributor :=
  let total := totalConfirmedOf sta
  ((List.insertionSort confirmedGE (sta.filter (fun it => 0 < it.confirmed))).take 3).map
    (fun it =>
      Contributor.mk it.state it.suspected it.confirmed it.deaths
        (if 0 < total then
          some (round3 ((it.confirmed : ℚ) / (total : ℚ)))
        else Option.none))

/-- `fastestGrowers`: per state, sort the week series by key, take the
largest consecutive delta, keep finite positive ones, sort descending,
take 3. -/
def fastestGrowersOf (swt : List (String × List (WeekKey × Counts))) : List Grower :=
  (List.insertionSort changeGE
    (swt.filterMap
      (fun p =>
        match bestGrowth (List.insertionSort entryKeyLE p.2) with
        | some (m, wk) =>
          if 0 < m then some (Grower.mk p.1 (some wk) m) else Option.none
        | none => Option.none))).take 3

/-- The scan over adjacent pairs of the global weekly series (when the
series has at most one entry the pair list is empty and the scan is the
initial state, exactly as the guarded loop leaves it). -/
def scanOf (series : List WeeklyEntry) : ScanState :=
  (series.zip series.tail).foldl scanStep ScanState.init

/-- The alert flags derived from the coverage ratio and the scan. -/
def alertFlagsOf (ratioQ : Option ℚ) (series : List WeeklyEntry) : AlertFlags :=
  let scan := scanOf series
  { incompleteReporting :=
      match ratioQ with
      | some q => decide (q < 3 / 4)
      | none => false
    sustainedGrowth := scan.sustained || decide (2 ≤ scan.consec)
    sharpSpike :=
      match scan.maxInc with
      | some (m, _, _) => decide (0 < m) && decide (25 ≤ m)
      | none => false
    elevatedDeaths := series.any (fun en => 5 ≤ en.deaths) }

/-- The notable signals, in push order. -/
def notableSignalsOf (missing : List WeekKey) (series : List WeeklyEntry) : List Signal :=
  let scan := scanOf series
  (if missing.isEmpty then [] else [Signal.missingReports missing]) ++
  (match scan.maxInc with
   | some (m, pw, cw) => if 0 < m then [Signal.largestIncrease m pw cw] else []
   | none => []) ++
  (match scan.maxDec with
   | some (m, pw, cw) => if m < 0 then [Signal.steepestDecline m pw cw] else []
   | none => [])

/-- `fetchWeeklyCoverage` for an already-parsed valid range
(`startDate ≤ endDate`). -/
def fetchWeeklyCoverageValid (s e : ℤ) (states : List String) (db : List Row) :
    CoverageResult :=
  let ag := aggregate s e states db
  let availableWeekLabels := availableWeekLabelsOf ag.availableWeeks
  let weeklySeries := weeklySeriesOf ag.weeklyTotals
  let allKeys := allWeekKeys s e
  let missingWeekLabels := missingWeekLabelsOf allKeys ag.availableWeeks
  let totalWeeks : Option ℤ :=
    if 0 < allKeys.length then some (allKeys.length : ℤ) else Option.none
  let coverageRatioQ : Option ℚ :=
    if 0 < allKeys.length then
      some (coverageRatioValue availableWeekLabels.length allKeys.length)
    else Option.none
  ⟨availableWeekLabels, weeklySeries, missingWeekLabels, coverageRatioQ, totalWeeks,
    topContributorsOf (stateTotalsArrayOf ag.stateTotals),
    fastestGrowersOf ag.stateWeeklyTotals,
    alertFlagsOf coverageRatioQ weeklySeries,
    notableSignalsOf missingWeekLabels weeklySeries⟩

/-- `fetchWeeklyCoverage startISO endISO states` over database rows `db`.
`none` dates model `NaN` parses; `isAfter(startDate, endDate)` yields the
neutral `emptyResult`. -/
def fetchWeeklyCoverage (startISO endISO : Option ℤ) (states : List String)
    (db : List Row) : CoverageResult :=
  match startISO, endISO with
  | some s, some e => if e < s then emptyResult else fetchWeeklyCoverageValid s e states db
  | _, _ => emptyResult

/-! ## `calculatePercentageChange` (`lib/utils.ts`) -/

/-- `calculatePercentageChange(current, previous)`: nullish inputs coerce to
0; a zero base yields 0 (from 0) or 100 (otherwise); else the signed
relative change in percent. -/
def calculatePercentageChange (current previous : Option ℚ) : ℚ :=
  let currentValue := current.getD 0
  let previousValue := previous.getD 0
  if previousValue = 0 then (if currentValue = 0 then 0 else 100)
  else (currentValue - previousValue) / |previousValue| * 100

/-! ## Report route denominators (`app/api/report/route.ts`) -/

/-- `totalWeeksCeil`: `Math.max(1, Math.ceil(totalDays / 7))`. -/
def totalWeeksCeil (totalDays : ℤ) : ℤ := max 1 ((totalDays + 6) / 7)

/-- The pair `(weeksReported, previousWeeksReported)` computed by the report
route for a validated range `[s, e]` (`s ≤ e`): the current window prefers
the published-week count and falls back to `totalWeeksCeil`; the previous
window of equal length falls back to `previousCoverage.totalWeeks ??
totalWeeksCeil`. -/
def routeDenominators (s e : ℤ) (states : List String) (db : List Row) : ℤ × ℤ :=
  let totalDays := (e - s) + 1
  let tc := totalWeeksCeil totalDays
  let coverage := fetchWeeklyCoverage (some s) (some e) states db
  let previousEnd := s - 1
  let previousStart := previousEnd - (totalDays - 1)
  let previousCoverage :=
    fetchWeeklyCoverage (some previousStart) (some previousEnd) states db
  let weeksReported : ℤ :=
    if 0 < coverage.availableWeekLabels.length then
      (coverage.availableWeekLabels.length : ℤ)
    else tc
  let previousTotalWeeks := previousCoverage.totalWeeks.getD tc
  let previousWeeksReported : ℤ :=
    if 0 < previousCoverage.availableWeekLabels.length then
      (previousCoverage.availableWeekLabels.length : ℤ)
    else previousTotalWeeks
  (weeksReported, previousWeeksReported)

/-- The denominator policy stated by the spec: the published-week count when
positive, otherwise the nominal window length `max 1 ⌈days / 7⌉`. -/
def specDenominator (availLen : ℕ) (days : ℤ) : ℤ :=
  if 0 < availLen then (availLen : ℤ) else totalWeeksCeil days

/-- Per-reported-week averages: window totals divided by the chosen
denominator (`summary.totals.x / weeksReported`). -/
def averagesPerReportedWeek (totals : Counts) (weeksReported : ℤ) : ℚ × ℚ × ℚ :=
  ((totals.confirmed : ℚ) / (weeksReported : ℚ),
   (totals.suspected : ℚ) / (weeksReported : ℚ),
   (totals.deaths : ℚ) / (weeksReported : ℚ))

/-! ## Derived predicates used in the statements -/

/-- A row contributes week key `k` to the aggregation maps: its raw
`(full_year, week)` fields render `k` and its week span overlaps the
requested range. -/
def rowContributes (s e : ℤ) (r : Row) (k : WeekKey) : Prop :=
  r.full_year = some k.year ∧ r.week = some k.week ∧
  s ≤ getIsoWeekStart k.year k.week + 6 ∧ getIsoWeekStart k.year k.week ≤ e

/-- A row's `(year, week)` pair is calendar-consistent: it is the canonical
ISO key of its own week-start date (true of every real ISO week number, and
exactly the condition the raw data can violate, e.g. week 53 of a 52-week
ISO year). -/
def rowCanonicalB (r : Row) : Bool :=
  match r.full_year, r.week with
  | some y, some w => decide (isoKey (getIsoWeekStart y w) = ⟨y, w⟩)
  | _, _ => true

/-- The confirmed delta of an adjacent pair of the weekly series. -/
def pairDelta (pr : WeeklyEntry × WeeklyEntry) : ℤ := pr.2.confirmed - pr.1.confirmed

/-- Whether the remaining pair list starts with a positive confirmed delta. -/
def headPos : List (WeeklyEntry × WeeklyEntry) → Bool
  | [] => false
  | pr :: _ => decide (0 < pairDelta pr)

/-- Two adjacent pairs of the scan both have positive deltas (three
consecutive series entries strictly increase). -/
def twoAdjPos : List (WeeklyEntry × WeeklyEntry) → Bool
  | [] => false
  | [_] => false
  | pr1 :: pr2 :: rest =>
    (decide (0 < pairDelta pr1) && decide (0 < pairDelta pr2)) || twoAdjPos (pr2 :: rest)

/-- The `consecutiveGrowth ≥ 2` trigger replayed from a starting counter. -/
def specSustained : ℕ → List (WeeklyEntry × WeeklyEntry) → Bool
  | _, [] => false
  | c, pr :: rest =>
    if 0 < pairDelta pr then (decide (2 ≤ c + 1)) || specSustained (c + 1) rest
    else specSustained 0 rest

/-! ## Calendar lemmas -/

theorem ratFloor_eq (q : ℚ) : ratFloor q = ⌊q⌋ := Rat.floor_def.symm

theorem sow_sub_one_dvd (d : ℤ) : 7 ∣ sow d - 1 := by
  unfold sow; omega

theorem sow_le (d : ℤ) : sow d ≤ d := by
  unfold sow; omega

theorem lt_sow (d : ℤ) : d - 7 < sow d := by
  unfold sow; omega

theorem sow_eq_self {d : ℤ} (h : 7 ∣ d - 1) : sow d = d := by
  unfold sow; omega

/-- Round trip: the calendar start of the canonical key of day `d` is the
Monday of the week of `d`. -/
theorem keyStart_isoKey (d : ℤ) : keyStart (isoKey d) = sow d := by
  have h7 : 7 ∣ sow d - sowYear (isoWeekYear d) := by
    have h1 := sow_sub_one_dvd d
    have h2 := sow_sub_one_dvd (jan4 (isoWeekYear d))
    unfold sowYear
    omega
  have hcan : 7 * ((sow d - sowYear (isoWeekYear d)) / 7) =
      sow d - sowYear (isoWeekYear d) := Int.mul_ediv_cancel' h7
  unfold keyStart isoKey isoWeek
  simp only
  omega

/-! ## Walk lemmas -/

theorem walkGo_of_gt {e cur : ℤ} (h : e < cur) (fuel : ℕ) : walkGo e fuel cur = [] := by
  cases fuel with
  | zero => rfl
  | succ f =>
    have hc : ¬ cur ≤ e := by omega
    simp [walkGo, hc]

theorem le_of_mem_walkGo {e : ℤ} :
    ∀ {fuel : ℕ} {cur x : ℤ}, x ∈ walkGo e fuel cur → cur ≤ x := by
  intro fuel
  induction fuel with
  | zero => intro cur x hx; simp [walkGo] at hx
  | succ f ih =>
    intro cur x hx
    by_cases hc : cur ≤ e
    · simp [walkGo, hc] at hx
      rcases hx with rfl | hx
      · exact le_refl x
      · have := ih hx; omega
    · simp [walkGo, hc] at hx

theorem dvd_of_mem_walkGo {e : ℤ} :
    ∀ {fuel : ℕ} {cur x : ℤ}, x ∈ walkGo e fuel cur → 7 ∣ x - cur := by
  intro fuel
  induction fuel with
  | zero => intro cur x hx; simp [walkGo] at hx
  | succ f ih =>
    intro cur x hx
    by_cases hc : cur ≤ e
    · simp [walkGo, hc] at hx
      rcases hx with rfl | hx
      · omega
      · have := ih hx; omega
    · simp [walkGo, hc] at hx

theorem mem_walkGo {e : ℤ} :
    ∀ {fuel : ℕ} {cur x : ℤ}, (e + 7 - cur).toNat ≤ fuel →
      (x ∈ walkGo e fuel cur ↔ cur ≤ x ∧ x ≤ e ∧ 7 ∣ x - cur) := by
  intro fuel
  induction fuel with
  | zero =>
    intro cur x hfuel
    have : e < cur := by omega
    simp [walkGo_of_gt this]
    omega
  | succ f ih =>
    intro cur x hfuel
    by_cases hc : cur ≤ e
    · have hrec := @ih (cur + 7) x (by omega)
      simp only [walkGo, if_pos hc, List.mem_cons, hrec]
      constructor
      · intro h; rcases h with rfl | h <;> omega
      · intro h
        by_cases hx : x = cur
        · exact Or.inl hx
        · right; omega
    · rw [walkGo_of_gt (by omega)]
      simp
      omega

theorem pairwise_walkGo (e : ℤ) :
    ∀ (fuel : ℕ) (cur : ℤ), List.Pairwise (· < ·) (walkGo e fuel cur) := by
  intro fuel
  induction fuel with
  | zero => intro cur; simp [walkGo]
  | succ f ih =>
    intro cur
    by_cases hc : cur ≤ e
    · simp only [walkGo, if_pos hc]
      refine List.Pairwise.cons ?_ (ih (cur + 7))
      intro x hx
      have := le_of_mem_walkGo hx
      omega
    · simp [walkGo, hc]

theorem mem_weekWalk {cur e x : ℤ} :
    x ∈ weekWalk cur e ↔ cur ≤ x ∧ x ≤ e ∧ 7 ∣ x - cur :=
  mem_walkGo (le_refl _)

theorem weekWalk_length_pos {cur e : ℤ} (h : cur ≤ e) : 0 < (weekWalk cur e).length := by
  unfold weekWalk
  obtain ⟨f, hf⟩ : ∃ f, (e + 7 - cur).toNat = f + 1 := ⟨(e + 6 - cur).toNat, by omega⟩
  rw [hf]
  simp [walkGo, h]

theorem pairwise_weekWalk (cur e : ℤ) : List.Pairwise (· < ·) (weekWalk cur e) :=
  pairwise_walkGo e _ cur

/-! ## `pushUnique` fold lemmas -/

theorem mem_pushUnique [DecidableEq α] {x y : α} {l : List α} :
    x ∈ pushUnique y l ↔ x ∈ l ∨ x = y := by
  unfold pushUnique
  split <;> rename_i h
  · constructor
    · exact Or.inl
    · intro hx; rcases hx with hx | rfl <;> [exact hx; exact h]
  · simp

theorem nodup_pushUnique [DecidableEq α] {y : α} {l : List α} (h : l.Nodup) :
    (pushUnique y l).Nodup := by
  unfold pushUnique
  split <;> rename_i hy
  · exact h
  · refine List.Nodup.append h (List.nodup_singleton y) ?_
    intro a ha hb
    simp only [List.mem_singleton] at hb
    subst hb
    exact hy ha

theorem mem_foldl_pushUnique [DecidableEq α] (f : β → α) :
    ∀ (l : List β) (acc : List α) (x : α),
      x ∈ l.foldl (fun a c => pushUnique (f c) a) acc ↔ x ∈ acc ∨ x ∈ l.map f := by
  intro l
  induction l with
  | nil => intro acc x; simp
  | cons hd tl ih =>
    intro acc x
    simp only [List.foldl_cons, List.map_cons, List.mem_cons]
    rw [ih, mem_pushUnique]
    tauto

theorem nodup_foldl_pushUnique [DecidableEq α] (f : β → α) :
    ∀ (l : List β) (acc : List α), acc.Nodup →
      (l.foldl (fun a c => pushUnique (f c) a) acc).Nodup := by
  intro l
  induction l with
  | nil => intro acc h; exact h
  | cons hd tl ih => intro acc h; exact ih _ (nodup_pushUnique h)

theorem foldl_pushUnique_of_nodup [DecidableEq α] (f : β → α) :
    ∀ (l : List β) (acc : List α), (l.map f).Nodup → (∀ x ∈ l.map f, x ∉ acc) →
      l.foldl (fun a c => pushUnique (f c) a) acc = acc ++ l.map f := by
  intro l
  induction l with
  | nil => intro acc _ _; simp
  | cons hd tl ih =>
    intro acc hnd hdis
    simp only [List.map_cons, List.nodup_cons] at hnd
    have hne : f hd ∉ acc := hdis _ (by simp)
    simp only [List.foldl_cons, List.map_cons]
    rw [show pushUnique (f hd) acc = acc ++ [f hd] by unfold pushUnique; simp [hne]]
    rw [ih _ hnd.2 ?_]
    · simp
    · intro x hx
      simp only [List.mem_append, List.mem_singleton]
      rintro (h | rfl)
      · exact hdis _ (by simp [hx]) h
      · exact hnd.1 hx

/-! ## `allWeekKeys` lemmas -/

theorem monday_of_mem_walkCursors {s e x : ℤ} (hx : x ∈ walkCursors s e) : 7 ∣ x - 1 := by
  have h1 : 7 ∣ x - sow s := dvd_of_mem_walkGo hx
  have h2 := sow_sub_one_dvd s
  omega

theorem sow_of_mem_walkCursors {s e x : ℤ} (hx : x ∈ walkCursors s e) : sow x = x :=
  sow_eq_self (monday_of_mem_walkCursors hx)

theorem isoKey_inj_monday {d1 d2 : ℤ} (h1 : 7 ∣ d1 - 1) (h2 : 7 ∣ d2 - 1)
    (h : isoKey d1 = isoKey d2) : d1 = d2 := by
  have e1 : keyStart (isoKey d1) = sow d1 := keyStart_isoKey d1
  have e2 : keyStart (isoKey d2) = sow d2 := keyStart_isoKey d2
  rw [h, e2] at e1
  rw [sow_eq_self h1, sow_eq_self h2] at e1
  exact e1.symm

theorem nodup_walkCursors (s e : ℤ) : (walkCursors s e).Nodup :=
  (pairwise_weekWalk _ _).imp (fun h => ne_of_lt h)

theorem allWeekKeys_eq_map (s e : ℤ) :
    allWeekKeys s e = (walkCursors s e).map isoKey := by
  refine foldl_pushUnique_of_nodup isoKey (walkCursors s e) [] ?_ (by simp)
  refine (nodup_walkCursors s e).map_on ?_
  intro x hx y hy hxy
  exact isoKey_inj_monday (monday_of_mem_walkCursors hx) (monday_of_mem_walkCursors hy) hxy

theorem length_allWeekKeys (s e : ℤ) :
    (allWeekKeys s e).length = (walkCursors s e).length := by
  rw [allWeekKeys_eq_map]; exact List.length_map _ _

theorem allWeekKeys_length_pos {s e : ℤ} (h : s ≤ e) : 0 < (allWeekKeys s e).length := by
  rw [length_allWeekKeys]
  exact weekWalk_length_pos (le_trans (sow_le s) h)

theorem nodup_allWeekKeys (s e : ℤ) : (allWeekKeys s e).Nodup := by
  rw [allWeekKeys_eq_map]
  refine (nodup_walkCursors s e).map_on ?_
  intro x hx y hy hxy
  exact isoKey_inj_monday (monday_of_mem_walkCursors hx) (monday_of_mem_walkCursors hy) hxy

theorem mem_allWeekKeys {s e : ℤ} {k : WeekKey} :
    k ∈ allWeekKeys s e ↔ ∃ d ∈ walkCursors s e, isoKey d = k := by
  rw [allWeekKeys_eq_map]
  simp [List.mem_map]

/-- Expected keys come out in strictly increasing chronological order
(by the calendar start of the week each key denotes). -/
theorem pairwise_keyStart_allWeekKeys (s e : ℤ) :
    List.Pairwise (fun a b => keyStart a < keyStart b) (allWeekKeys s e) := by
  rw [allWeekKeys_eq_map, List.pairwise_map]
  refine (pairwise_weekWalk (sow s) e).imp_of_mem ?_
  intro a b ha hb hab
  rw [keyStart_isoKey, keyStart_isoKey, sow_of_mem_walkCursors ha, sow_of_mem_walkCursors hb]
  exact hab

/-! ## Unfolding lemmas for `fetchWeeklyCoverage` -/

theorem fetchWeeklyCoverage_valid {s e : ℤ} (h : s ≤ e) (states : List String)
    (db : List Row) :
    fetchWeeklyCoverage (some s) (some e) states db = fetchWeeklyCoverageValid s e states db := by
  simp [fetchWeeklyCoverage, show ¬ e < s by omega]

theorem length_availableWeekLabelsOf (l : List WeekKey) :
    (availableWeekLabelsOf l).length = l.length :=
  (List.perm_insertionSort keyLE l).length_eq

theorem mem_availableWeekLabelsOf {l : List WeekKey} {k : WeekKey} :
    k ∈ availableWeekLabelsOf l ↔ k ∈ l :=
  (List.perm_insertionSort keyLE l).mem_iff

theorem fwcv_availableWeekLabels (s e : ℤ) (states : List String) (db : List Row) :
    (fetchWeeklyCoverageValid s e states db).availableWeekLabels =
      availableWeekLabelsOf (aggregate s e states db).availableWeeks := rfl

theorem fwcv_weeklySeries (s e : ℤ) (states : List String) (db : List Row) :
    (fetchWeeklyCoverageValid s e states db).weeklySeries =
      weeklySeriesOf (aggregate s e states db).weeklyTotals := rfl

theorem fwcv_missingWeekLabels (s e : ℤ) (states : List String) (db : List Row) :
    (fetchWeeklyCoverageValid s e states db).missingWeekLabels =
      missingWeekLabelsOf (allWeekKeys s e) (aggregate s e states db).availableWeeks := rfl

theorem fwcv_totalWeeks (s e : ℤ) (states : List String) (db : List Row) :
    (fetchWeeklyCoverageValid s e states db).totalWeeks =
      (if 0 < (allWeekKeys s e).length then some ((allWeekKeys s e).length : ℤ)
       else Option.none) := rfl

theorem fwcv_coverageRatioQ (s e : ℤ) (states : List String) (db : List Row) :
    (fetchWeeklyCoverageValid s e states db).coverageRatioQ =
      (if 0 < (allWeekKeys s e).length then
        some (coverageRatioValue
          (availableWeekLabelsOf (aggregate s e states db).availableWeeks).length
          (allWeekKeys s e).length)
       else Option.none) := rfl

theorem fwcv_topContributors (s e : ℤ) (states : List String) (db : List Row) :
    (fetchWeeklyCoverageValid s e states db).topContributors =
      topContributorsOf (stateTotalsArrayOf (aggregate s e states db).stateTotals) := rfl

theorem fwcv_fastestGrowers (s e : ℤ) (states : List String) (db : List Row) :
    (fetchWeeklyCoverageValid s e states db).fastestGrowers =
      fastestGrowersOf (aggregate s e states db).stateWeeklyTotals := rfl

theorem fwcv_alertFlags (s e : ℤ) (states : List String) (db : List Row) :
    (fetchWeeklyCoverageValid s e states db).alertFlags =
      alertFlagsOf (fetchWeeklyCoverageValid s e states db).coverageRatioQ
        (weeklySeriesOf (aggregate s e states db).weeklyTotals) := rfl

/-! ## Claim C1 -/

unseal Rat.mul Rat.inv Rat.add Rat.sub in
/-- C1 (counterexample): for the three-week range 2025-01-06..2025-01-26
(days 739257..739277, weeks 2025-W02..W04) with data only in 2025-W02, the
returned `coverageRatio` is `(1/3).toFixed(3) = 0.333`, which is not exactly
`|availableWeeks| / |totalWeeks| = 1/3`: the code rounds the ratio to three
decimals before returning it. -/
theorem C1_counterexample :
    (fetchWeeklyCoverage (some 739257) (some 739277) []
      [⟨some 2025, some 2, some "Lagos", some 0, some 1, some 0⟩]).availableWeekLabels.length
        = 1 ∧
    (fetchWeeklyCoverage (some 739257) (some 739277) []
      [⟨some 2025, some 2, some "Lagos", some 0, some 1, some 0⟩]).totalWeeks = some 3 ∧
    (fetchWeeklyCoverage (some 739257) (some 739277) []
      [⟨some 2025, some 2, some "Lagos", some 0, some 1, some 0⟩]).coverageRatioQ =
      some ((333 : ℚ) / 1000) ∧
    ((333 : ℚ) / 1000) ≠ (1 : ℚ) / 3 := by decide

/-- C1 (amended): for a valid range the expected week sequence is non-empty,
`totalWeeks` is its positive length `n`, and `coverageRatio` is
`|availableWeeks| / n` rounded to three decimals (`toFixed(3)`), so the
division never has a zero denominator; whenever `totalWeeks` is `null`
(degenerate input) `coverageRatio` is `null` as well. -/
theorem C1_main (startISO endISO : Option ℤ) (states : List String) (db : List Row) :
    (∀ s e : ℤ, startISO = some s → endISO = some e → s ≤ e →
      ∃ n : ℕ, 0 < n ∧
        (fetchWeeklyCoverage startISO endISO states db).totalWeeks = some (n : ℤ) ∧
        (fetchWeeklyCoverage startISO endISO states db).coverageRatioQ =
          some (round3
            (((fetchWeeklyCoverage startISO endISO states db).availableWeekLabels.length : ℚ) /
              (n : ℚ)))) ∧
    ((fetchWeeklyCoverage startISO endISO states db).totalWeeks = Option.none →
      (fetchWeeklyCoverage startISO endISO states db).coverageRatioQ = Option.none) := by
  constructor
  · rintro s e rfl rfl h
    rw [fetchWeeklyCoverage_valid h]
    refine ⟨(allWeekKeys s e).length, allWeekKeys_length_pos h, ?_, ?_⟩
    · rw [fwcv_totalWeeks, if_pos (allWeekKeys_length_pos h)]
    · rw [fwcv_coverageRatioQ, if_pos (allWeekKeys_length_pos h), fwcv_availableWeekLabels]
      rfl
  · intro htw
    match hs : startISO, he : endISO with
    | Option.none, _ => rfl
    | some s, Option.none => rfl
    | some s, some e =>
      by_cases hlt : e < s
      · simp [fetchWeeklyCoverage, hlt, emptyResult]
      · rw [fetchWeeklyCoverage_valid (by omega)] at htw ⊢
        rw [fwcv_totalWeeks] at htw
        rw [fwcv_coverageRatioQ]
        split at htw
        · exact absurd htw (by simp)
        · rename_i hn
          rw [if_neg hn]

/-- C1 (witness): the amended theorem applied to the counterexample range. -/
theorem C1_witness :
    ∃ n : ℕ, 0 < n ∧
      (fetchWeeklyCoverage (some 739257) (some 739277) []
        [⟨some 2025, some 2, some "Lagos", some 0, some 1, some 0⟩]).totalWeeks = some (n : ℤ) ∧
      (fetchWeeklyCoverage (some 739257) (some 739277) []
        [⟨some 2025, some 2, some "Lagos", some 0, some 1, some 0⟩]).coverageRatioQ =
        some (round3
          (((fetchWeeklyCoverage (some 739257) (some 739277) []
            [⟨some 2025, some 2, some "Lagos", some 0, some 1, some 0⟩]).availableWeekLabels.length : ℚ) /
            (n : ℚ))) :=
  (C1_main (some 739257) (some 739277) []
    [⟨some 2025, some 2, some "Lagos", some 0, some 1, some 0⟩]).1
    739257 739277 rfl rfl (by decide)

/-! ## Claim C4 -/

/-- C4: `calculatePercentageChange` implements exactly the zero-base policy
of the spec — `0` when both arguments are zero, `100` when only the base is
zero, else `(current − previous) / |previous| × 100` — and matches the four
quoted values.  The function is total on `ℚ`, so it never produces an
infinite or undefined result. -/
theorem C4_main :
    (∀ c p : ℚ, calculatePercentageChange (some c) (some p) =
      if p = 0 then (if c = 0 then 0 else 100) else (c - p) / |p| * 100) ∧
    calculatePercentageChange (some 0) (some 0) = 0 ∧
    calculatePercentageChange (some 5) (some 0) = 100 ∧
    calculatePercentageChange (some 150) (some 100) = 50 ∧
    calculatePercentageChange (some 50) (some 100) = -50 := by
  refine ⟨fun c p => rfl, ?_, ?_, ?_, ?_⟩ <;>
    norm_num [calculatePercentageChange, abs_of_pos]

/-! ## Claim C9 -/

/-- C9 (counterexample): on an inverted range the code returns
`totalWeeks = null`, not `totalWeeks = 0` as the claim states. -/
theorem C9_counterexample :
    (fetchWeeklyCoverage (some 5) (some 3) [] []).totalWeeks = Option.none ∧
    Option.none ≠ some (0 : ℤ) := by decide

/-- C9 (amended): every degenerate input — inverted range or an unparseable
date on either side — yields, without throwing, the neutral `emptyResult`,
in which all week lists, the series, the contributor and grower lists and
the signals are empty, and both `totalWeeks` and `coverageRatio` are `null`
(the claim said `totalWeeks = 0`; the code returns `null`). -/
theorem C9_main (states : List String) (db : List Row) :
    (∀ s e : ℤ, e < s → fetchWeeklyCoverage (some s) (some e) states db = emptyResult) ∧
    (∀ endISO, fetchWeeklyCoverage Option.none endISO states db = emptyResult) ∧
    (∀ startISO, fetchWeeklyCoverage startISO Option.none states db = emptyResult) ∧
    emptyResult.availableWeekLabels = [] ∧
    emptyResult.weeklySeries = [] ∧
    emptyResult.missingWeekLabels = [] ∧
    emptyResult.topContributors = [] ∧
    emptyResult.fastestGrowers = [] ∧
    emptyResult.notableSignals = [] ∧
    emptyResult.totalWeeks = Option.none ∧
    emptyResult.coverageRatioQ = Option.none := by
  refine ⟨?_, ?_, ?_, rfl, rfl, rfl, rfl, rfl, rfl, rfl, rfl⟩
  · intro s e h
    simp [fetchWeeklyCoverage, h]
  · intro endISO
    cases endISO <;> rfl
  · intro startISO
    cases startISO <;> rfl

/-- C9 (witness): the amended theorem applied to a concrete inverted range. -/
theorem C9_witness :
    fetchWeeklyCoverage (some 9) (some 4) ["Lagos"]
      [⟨some 2025, some 1, some "Lagos", some 1, some 1, some 1⟩] = emptyResult :=
  (C9_main ["Lagos"] [⟨some 2025, some 1, some "Lagos", some 1, some 1, some 1⟩]).1
    9 4 (by decide)

/-! ## Claim C3 -/

/-- C3 (counterexample): current window 2025-01-14..2025-01-22 (9 days,
`ceil(9/7) = 2`); its previous window 2025-01-05..2025-01-13 overlaps three
ISO weeks (2025-W01..W03).  With no data anywhere, the spec denominator rule
gives `max 1 ⌈9/7⌉ = 2` for both windows, but the route computes
`previousWeeksReported = previousCoverage.totalWeeks = 3`: the
previous-window fallback is not `ceil(days/7)`. -/
theorem C3_counterexample :
    routeDenominators 739265 739273 [] [] = (2, 3) ∧
    (fetchWeeklyCoverage (some 739256) (some 739264) [] []).availableWeekLabels.length = 0 ∧
    specDenominator 0 9 = 2 ∧
    (3 : ℤ) ≠ 2 := by decide

/-- C3 (amended): the current window's averaging denominator follows the
denominator rule exactly (published-week count when positive, else
`max 1 ⌈days/7⌉`); the previous window's denominator uses the published-week
count when positive but falls back to the previous window's ISO-week count
(`previousCoverage.totalWeeks`, with `totalWeeksCeil` only when that is
`null`), which can differ from `ceil(days/7)`.  The rule transfers to the
previous window exactly when that ISO-week count coincides with
`totalWeeksCeil`. -/
theorem C3_main (s e : ℤ) (states : List String) (db : List Row) :
    (routeDenominators s e states db).1 =
      specDenominator
        (fetchWeeklyCoverage (some s) (some e) states db).availableWeekLabels.length
        ((e - s) + 1) ∧
    (routeDenominators s e states db).2 =
      (if 0 < (fetchWeeklyCoverage (some (s - ((e - s) + 1))) (some (s - 1)) states
            db).availableWeekLabels.length then
        ((fetchWeeklyCoverage (some (s - ((e - s) + 1))) (some (s - 1)) states
            db).availableWeekLabels.length : ℤ)
       else
        ((fetchWeeklyCoverage (some (s - ((e - s) + 1))) (some (s - 1)) states
            db).totalWeeks.getD (totalWeeksCeil ((e - s) + 1)))) ∧
    ((fetchWeeklyCoverage (some (s - ((e - s) + 1))) (some (s - 1)) states db).totalWeeks =
        some (totalWeeksCeil ((e - s) + 1)) →
      (routeDenominators s e states db).2 =
        specDenominator
          (fetchWeeklyCoverage (some (s - ((e - s) + 1))) (some (s - 1)) states
            db).availableWeekLabels.length
          ((e - s) + 1)) := by
  refine ⟨?_, ?_, ?_⟩
  · show (if 0 < (fetchWeeklyCoverage (some s) (some e) states db).availableWeekLabels.length
        then ((fetchWeeklyCoverage (some s) (some e) states
          db).availableWeekLabels.length : ℤ)
        else totalWeeksCeil ((e - s) + 1)) =
      specDenominator _ _
    rfl
  · show (if 0 < (fetchWeeklyCoverage (some (s - 1 - ((e - s) + 1 - 1))) (some (s - 1)) states
        db).availableWeekLabels.length then _ else _) = _
    have harg : s - 1 - ((e - s) + 1 - 1) = s - ((e - s) + 1) := by ring
    rw [harg]
  · intro htw
    show (if 0 < (fetchWeeklyCoverage (some (s - 1 - ((e - s) + 1 - 1))) (some (s - 1)) states
        db).availableWeekLabels.length then _ else _) = _
    have harg : s - 1 - ((e - s) + 1 - 1) = s - ((e - s) + 1) := by ring
    rw [harg, htw]
    unfold specDenominator
    split <;> rfl

/-- C3 (witness): for aligned 7-day windows 2025-01-06..2025-01-12 the
previous window covers exactly `ceil(7/7) = 1` ISO week, so the rule
transfer of the amended theorem applies. -/
theorem C3_witness :
    (fetchWeeklyCoverage (some (739257 - ((739263 - 739257) + 1))) (some (739257 - 1)) []
        []).totalWeeks = some (totalWeeksCeil ((739263 - 739257) + 1)) ∧
    (routeDenominators 739257 739263 [] []).2 =
      specDenominator
        (fetchWeeklyCoverage (some (739257 - ((739263 - 739257) + 1))) (some (739257 - 1)) []
          []).availableWeekLabels.length
        ((739263 - 739257) + 1) :=
  ⟨by decide, (C3_main 739257 739263 [] []).2.2 (by decide)⟩

/-! ## Aggregation-loop lemmas -/

theorem mem_availableWeeks_foldl (s e : ℤ) :
    ∀ (l : List Row) (st : AggState) (k : WeekKey),
      k ∈ (l.foldl (aggStep s e) st).availableWeeks ↔
        k ∈ st.availableWeeks ∨ ∃ r ∈ l, rowContributes s e r k := by
  intro l
  induction l with
  | nil => intro st k; simp
  | cons hd tl ih =>
    intro st k
    rw [List.foldl_cons, ih]
    rcases hy : hd.full_year with _ | y <;> rcases hw : hd.week with _ | w
    all_goals simp only [aggStep, hy, hw]
    · simp [rowContributes, hy]
    · simp [rowContributes, hy]
    · simp [rowContributes, hw]
    · split <;> rename_i hov
      · have hnc : ¬ rowContributes s e hd k := by
          intro ⟨hy', hw', h1, h2⟩
          rw [hy] at hy'
          rw [hw] at hw'
          cases hy'
          cases hw'
          omega
        simp only [List.mem_cons]
        constructor
        · rintro (hk | ⟨r, hr, hc⟩)
          · exact Or.inl hk
          · exact Or.inr ⟨r, Or.inr hr, hc⟩
        · rintro (hk | ⟨r, rfl | hr, hc⟩)
          · exact Or.inl hk
          · exact absurd hc hnc
          · exact Or.inr ⟨r, hr, hc⟩
      · simp only [List.mem_cons, mem_pushUnique]
        have hiff : k = WeekKey.mk y w ↔ rowContributes s e hd k := by
          constructor
          · rintro rfl
            exact ⟨hy, hw, show s ≤ getIsoWeekStart y w + 6 by omega,
              show getIsoWeekStart y w ≤ e by omega⟩
          · rintro ⟨hy', hw', _, _⟩
            rw [hy] at hy'
            rw [hw] at hw'
            cases hy'
            cases hw'
            rfl
        constructor
        · rintro ((hk | hk) | ⟨r, hr, hc⟩)
          · exact Or.inl hk
          · exact Or.inr ⟨hd, Or.inl rfl, hiff.1 hk⟩
          · exact Or.inr ⟨r, Or.inr hr, hc⟩
        · rintro (hk | ⟨r, rfl | hr, hc⟩)
          · exact Or.inl (Or.inl hk)
          · exact Or.inl (Or.inr (hiff.2 hc))
          · exact Or.inr ⟨r, hr, hc⟩

theorem nodup_availableWeeks_foldl (s e : ℤ) :
    ∀ (l : List Row) (st : AggState), st.availableWeeks.Nodup →
      (l.foldl (aggStep s e) st).availableWeeks.Nodup := by
  intro l
  induction l with
  | nil => intro st h; exact h
  | cons hd tl ih =>
    intro st h
    rw [List.foldl_cons]
    refine ih _ ?_
    rcases hy : hd.full_year with _ | y <;> rcases hw : hd.week with _ | w <;>
      simp only [aggStep, hy, hw]
    · exact h
    · exact h
    · exact h
    · split
      · exact h
      · exact nodup_pushUnique h

theorem mem_aggregate_availableWeeks {s e : ℤ} {states : List String} {db : List Row}
    {k : WeekKey} :
    k ∈ (aggregate s e states db).availableWeeks ↔
      ∃ r ∈ db.filter (queryKeep (yearsToFetch s e) (stateFiltersOf states)),
        rowContributes s e r k := by
  unfold aggregate
  rw [mem_availableWeeks_foldl]
  simp [AggState.init]

theorem nodup_aggregate_availableWeeks (s e : ℤ) (states : List String) (db : List Row) :
    (aggregate s e states db).availableWeeks.Nodup :=
  nodup_availableWeeks_foldl s e _ _ (by simp [AggState.init])

theorem getIsoWeekStart_monday (y w : ℤ) : 7 ∣ getIsoWeekStart y w - 1 := by
  have := sow_sub_one_dvd (jan4 (jsYear y))
  unfold getIsoWeekStart
  omega

/-- Every key a canonical row contributes lies in the expected sequence. -/
theorem contributed_key_mem_allWeekKeys {s e : ℤ} {r : Row} {k : WeekKey}
    (hc : rowContributes s e r k)
    (hcanon : isoKey (getIsoWeekStart k.year k.week) = ⟨k.year, k.week⟩) :
    k ∈ allWeekKeys s e := by
  obtain ⟨hy, hw, h1, h2⟩ := hc
  set ws := getIsoWeekStart k.year k.week with hws
  have hmon : 7 ∣ ws - 1 := getIsoWeekStart_monday k.year k.week
  have hsow := sow_sub_one_dvd s
  have hle := sow_le s
  have hgt := lt_sow s
  have hmem : ws ∈ walkCursors s e := by
    rw [walkCursors, mem_weekWalk]
    refine ⟨by omega, h2, by omega⟩
  rw [mem_allWeekKeys]
  exact ⟨ws, hmem, by rw [hcanon]⟩

/-! ## Claim C8 -/

unseal Rat.mul Rat.inv Rat.add Rat.sub in
/-- C8 (counterexample): for the range 2024-12-23..2025-01-05 (expected
sequence `[2024-W52, 2025-W01]`, `totalWeeks = 2`), rows carrying the
non-canonical pairs `(2024, 53)` and `(2025, 0)` (ISO year 2024 has only 52
weeks) still overlap the range and each contributes its own distinct key,
so `|availableWeeks| = 3 > totalWeeks = 2`. -/
theorem C8_counterexample :
    (fetchWeeklyCoverage (some 739243) (some 739256) []
      [⟨some 2024, some 53, some "Lagos", some 0, some 1, some 0⟩,
       ⟨some 2025, some 0, some "Ogun", some 0, some 1, some 0⟩,
       ⟨some 2025, some 1, some "Oyo", some 0, some 1, some 0⟩]).availableWeekLabels.length
        = 3 ∧
    (fetchWeeklyCoverage (some 739243) (some 739256) []
      [⟨some 2024, some 53, some "Lagos", some 0, some 1, some 0⟩,
       ⟨some 2025, some 0, some "Ogun", some 0, some 1, some 0⟩,
       ⟨some 2025, some 1, some "Oyo", some 0, some 1, some 0⟩]).totalWeeks = some 2 ∧
    ¬ ((3 : ℤ) ≤ 2) := by decide

/-- C8 (amended): when every database row's `(full_year, week)` pair is
calendar-consistent (the canonical ISO key of its own week-start date —
true of all real ISO week numbers), the number of distinct available weeks
is at most the number of expected weeks: `|availableWeeks| ≤ |totalWeeks|`.
Rows with out-of-calendar week numbers (e.g. week 53 of a 52-week year) can
violate the bound. -/
theorem C8_main (s e : ℤ) (states : List String) (db : List Row) (h : s ≤ e)
    (hcanon : ∀ r ∈ db, rowCanonicalB r = true) :
    (fetchWeeklyCoverage (some s) (some e) states db).totalWeeks =
      some ((allWeekKeys s e).length : ℤ) ∧
    (fetchWeeklyCoverage (some s) (some e) states db).availableWeekLabels.length ≤
      (allWeekKeys s e).length := by
  rw [fetchWeeklyCoverage_valid h]
  constructor
  · rw [fwcv_totalWeeks, if_pos (allWeekKeys_length_pos h)]
  · rw [fwcv_availableWeekLabels, length_availableWeekLabelsOf]
    have hsub : (aggregate s e states db).availableWeeks ⊆ allWeekKeys s e := by
      intro k hk
      rw [mem_aggregate_availableWeeks] at hk
      obtain ⟨r, hr, hc⟩ := hk
      have hrdb : r ∈ db := (List.mem_filter.1 hr).1
      have hcr := hcanon r hrdb
      have hkey : isoKey (getIsoWeekStart k.year k.week) = ⟨k.year, k.week⟩ := by
        obtain ⟨hy, hw, _, _⟩ := hc
        unfold rowCanonicalB at hcr
        rw [hy, hw] at hcr
        exact of_decide_eq_true hcr
      exact contributed_key_mem_allWeekKeys hc hkey
    exact (List.subperm_of_subset (nodup_aggregate_availableWeeks s e states db) hsub).length_le

/-- C8 (witness): the amended bound at the one-week range 2024-W01 with a
single canonical row. -/
theorem C8_witness :
    (fetchWeeklyCoverage (some 738886) (some 738892) []
      [⟨some 2024, some 1, some "Lagos", some 10, some 2, some 0⟩]).totalWeeks =
      some ((allWeekKeys 738886 738892).length : ℤ) ∧
    (fetchWeeklyCoverage (some 738886) (some 738892) []
      [⟨some 2024, some 1, some "Lagos", some 10, some 2, some 0⟩]).availableWeekLabels.length ≤
      (allWeekKeys 738886 738892).length :=
  C8_main 738886 738892 []
    [⟨some 2024, some 1, some "Lagos", some 10, some 2, some 0⟩]
    (by decide) (by decide)

/-! ## Claim C2 -/

unseal Rat.mul Rat.inv Rat.add Rat.sub in
/-- C2 (counterexample): for the range 2024-12-23..2025-01-05 the expected
sequence is `[2024-W52, 2025-W01]`, but a row carrying `(2024, 53)` (a week
number outside ISO year 2024, whose computed week span nevertheless overlaps
the range) contributes the key `2024-W53` to `availableWeeks`.  That key is
in neither the expected sequence nor `missingWeeks`' complement, so
`availableWeeks ∪ missingWeeks ≠` expected sequence and `availableWeeks ⊄`
expected sequence. -/
theorem C2_counterexample :
    (⟨2024, 53⟩ : WeekKey) ∈ (fetchWeeklyCoverage (some 739243) (some 739256) []
      [⟨some 2024, some 53, some "Lagos", some 0, some 1, some 0⟩]).availableWeekLabels ∧
    (⟨2024, 53⟩ : WeekKey) ∉ allWeekKeys 739243 739256 ∧
    allWeekKeys 739243 739256 = [⟨2024, 52⟩, ⟨2025, 1⟩] := by decide

/-- C2 (amended): for a valid range, (i) the union of `availableWeeks` and
`missingWeeks` equals, as a set, the expected sequence *together with*
`availableWeeks` (equality with the expected sequence itself holds exactly
when every available key is expected, which non-canonical row data can
break); (ii) `availableWeeks` is exactly the set of distinct week keys of
the post-filter rows whose week span overlaps the range — not intersected
with the expected sequence; (iii) `missingWeeks` is strictly
chronologically ordered (by the calendar start of each key's week) and has
no duplicates. -/
theorem C2_main (s e : ℤ) (states : List String) (db : List Row) (h : s ≤ e) :
    (∀ k : WeekKey,
      (k ∈ (fetchWeeklyCoverage (some s) (some e) states db).availableWeekLabels ∨
        k ∈ (fetchWeeklyCoverage (some s) (some e) states db).missingWeekLabels) ↔
      (k ∈ allWeekKeys s e ∨
        k ∈ (fetchWeeklyCoverage (some s) (some e) states db).availableWeekLabels)) ∧
    (∀ k : WeekKey,
      k ∈ (fetchWeeklyCoverage (some s) (some e) states db).availableWeekLabels ↔
        ∃ r ∈ db.filter (queryKeep (yearsToFetch s e) (stateFiltersOf states)),
          rowContributes s e r k) ∧
    List.Pairwise (fun a b => keyStart a < keyStart b)
      (fetchWeeklyCoverage (some s) (some e) states db).missingWeekLabels ∧
    (fetchWeeklyCoverage (some s) (some e) states db).missingWeekLabels.Nodup := by
  rw [fetchWeeklyCoverage_valid h]
  have hmem : ∀ k : WeekKey,
      k ∈ (fetchWeeklyCoverageValid s e states db).availableWeekLabels ↔
        k ∈ (aggregate s e states db).availableWeeks := by
    intro k
    rw [fwcv_availableWeekLabels]
    exact mem_availableWeekLabelsOf
  have hmiss : ∀ k : WeekKey,
      k ∈ (fetchWeeklyCoverageValid s e states db).missingWeekLabels ↔
        k ∈ allWeekKeys s e ∧ ¬ k ∈ (aggregate s e states db).availableWeeks := by
    intro k
    rw [fwcv_missingWeekLabels]
    unfold missingWeekLabelsOf
    simp [List.mem_filter]
  refine ⟨?_, ?_, ?_, ?_⟩
  · intro k
    constructor
    · rintro (hk | hk)
      · exact Or.inr hk
      · exact Or.inl ((hmiss k).1 hk).1
    · rintro (hk | hk)
      · by_cases hav : k ∈ (aggregate s e states db).availableWeeks
        · exact Or.inl ((hmem k).2 hav)
        · exact Or.inr ((hmiss k).2 ⟨hk, hav⟩)
      · exact Or.inl hk
  · intro k
    rw [hmem k]
    exact mem_aggregate_availableWeeks
  · rw [fwcv_missingWeekLabels]
    exact List.Pairwise.filter _ (pairwise_keyStart_allWeekKeys s e)
  · rw [fwcv_missingWeekLabels]
    exact List.Pairwise.filter _ (nodup_allWeekKeys s e)

/-- C2 (witness): the amended theorem at the one-week range 2024-W01 with a
single Lagos row. -/
theorem C2_witness :
    (∀ k : WeekKey,
      (k ∈ (fetchWeeklyCoverage (some 738886) (some 738892) []
          [⟨some 2024, some 1, some "Lagos", some 10, some 2, some 0⟩]).availableWeekLabels ∨
        k ∈ (fetchWeeklyCoverage (some 738886) (some 738892) []
          [⟨some 2024, some 1, some "Lagos", some 10, some 2, some 0⟩]).missingWeekLabels) ↔
      (k ∈ allWeekKeys 738886 738892 ∨
        k ∈ (fetchWeeklyCoverage (some 738886) (some 738892) []
          [⟨some 2024, some 1, some "Lagos", some 10, some 2, some 0⟩]).availableWeekLabels)) ∧
    (∀ k : WeekKey,
      k ∈ (fetchWeeklyCoverage (some 738886) (some 738892) []
          [⟨some 2024, some 1, some "Lagos", some 10, some 2, some 0⟩]).availableWeekLabels ↔
        ∃ r ∈ List.filter
            (queryKeep (yearsToFetch 738886 738892) (stateFiltersOf []))
            [⟨some 2024, some 1, some "Lagos", some 10, some 2, some 0⟩],
          rowContributes 738886 738892 r k) ∧
    List.Pairwise (fun a b => keyStart a < keyStart b)
      (fetchWeeklyCoverage (some 738886) (some 738892) []
        [⟨some 2024, some 1, some "Lagos", some 10, some 2, some 0⟩]).missingWeekLabels ∧
    (fetchWeeklyCoverage (some 738886) (some 738892) []
      [⟨some 2024, some 1, some "Lagos", some 10, some 2, some 0⟩]).missingWeekLabels.Nodup :=
  C2_main 738886 738892 []
    [⟨some 2024, some 1, some "Lagos", some 10, some 2, some 0⟩] (by decide)

/-! ## Sum conservation (aggregation is metric-preserving) -/

theorem sum_upsertAdd (f : Counts → ℤ) (hf : ∀ a b, f (Counts.add a b) = f a + f b)
    (hz : f Counts.zero = 0) {κ : Type} [DecidableEq κ] (k : κ) (c : Counts) :
    ∀ l : List (κ × Counts),
      ((upsertAdd k c l).map (fun p => f p.2)).sum = (l.map (fun p => f p.2)).sum + f c := by
  intro l
  induction l with
  | nil => simp [upsertAdd, hf, hz]
  | cons hd tl ih =>
    rcases hd with ⟨k', v⟩
    by_cases hk : k' = k
    · simp only [upsertAdd, if_pos hk, List.map_cons, List.sum_cons, hf]
      ring
    · simp only [upsertAdd, if_neg hk, List.map_cons, List.sum_cons, ih]
      ring

theorem weekly_state_sums (s e : ℤ) (f : Counts → ℤ)
    (hf : ∀ a b, f (Counts.add a b) = f a + f b) (hz : f Counts.zero = 0) :
    ∀ (l : List Row) (st : AggState),
      ((l.foldl (aggStep s e) st).weeklyTotals.map (fun p => f p.2)).sum +
          (st.stateTotals.map (fun p => f p.2)).sum =
        ((l.foldl (aggStep s e) st).stateTotals.map (fun p => f p.2)).sum +
          (st.weeklyTotals.map (fun p => f p.2)).sum := by
  intro l
  induction l with
  | nil => intro st; simp only [List.foldl_nil]; ring
  | cons hd tl ih =>
    intro st
    rw [List.foldl_cons]
    rcases hy : hd.full_year with _ | y <;> rcases hw : hd.week with _ | w <;>
      simp only [aggStep, hy, hw]
    · exact ih st
    · exact ih st
    · exact ih st
    · split
      · exact ih st
      · have h1 := ih (AggState.mk
          (pushUnique ⟨y, w⟩ st.availableWeeks)
          (upsertAdd ⟨y, w⟩ hd.counts st.weeklyTotals)
          (upsertAdd (hd.states.getD "Unknown") hd.counts st.stateTotals)
          (nestedUpsertAdd (hd.states.getD "Unknown") ⟨y, w⟩ hd.counts st.stateWeeklyTotals))
        have h2 := sum_upsertAdd f hf hz (WeekKey.mk y w) hd.counts st.weeklyTotals
        have h3 := sum_upsertAdd f hf hz (hd.states.getD "Unknown") hd.counts st.stateTotals
        simp only at h1 ⊢
        omega

theorem aggregate_sums (s e : ℤ) (states : List String) (db : List Row) (f : Counts → ℤ)
    (hf : ∀ a b, f (Counts.add a b) = f a + f b) (hz : f Counts.zero = 0) :
    ((aggregate s e states db).weeklyTotals.map (fun p => f p.2)).sum =
      ((aggregate s e states db).stateTotals.map (fun p => f p.2)).sum := by
  have h := weekly_state_sums s e f hf hz
    (db.filter (queryKeep (yearsToFetch s e) (stateFiltersOf states))) AggState.init
  have h0 : ((AggState.init.stateTotals).map (fun p => f p.2)).sum = 0 := rfl
  have h1 : ((AggState.init.weeklyTotals).map (fun p => f p.2)).sum = 0 := rfl
  unfold aggregate
  omega

theorem sum_weeklySeriesOf (wt : List (WeekKey × Counts)) (f : Counts → ℤ)
    (g : WeeklyEntry → ℤ)
    (hfg : ∀ p : WeekKey × Counts,
      g (WeeklyEntry.mk p.1 p.2.suspected p.2.confirmed p.2.deaths) = f p.2) :
    ((weeklySeriesOf wt).map g).sum = (wt.map (fun p => f p.2)).sum := by
  unfold weeklySeriesOf
  rw [List.map_map]
  have hmap : (g ∘ fun p : WeekKey × Counts =>
      WeeklyEntry.mk p.1 p.2.suspected p.2.confirmed p.2.deaths) = fun p => f p.2 := by
    funext p
    exact hfg p
  rw [hmap]
  exact ((List.perm_insertionSort entryKeyLE wt).map (fun p => f p.2)).sum_eq

theorem totalConfirmedOf_eq_sum :
    ∀ (sta : List StateTotal) (a : ℤ),
      sta.foldl (fun acc it => acc + it.confirmed) a =
        a + (sta.map (fun it => it.confirmed)).sum := by
  intro sta
  induction sta with
  | nil => intro a; simp
  | cons hd tl ih =>
    intro a
    simp only [List.foldl_cons, List.map_cons, List.sum_cons, ih]
    ring

theorem share_topContributorsOf (sta : List StateTotal) :
    ∀ t ∈ topContributorsOf sta,
      t.shareOfConfirmed =
        (if 0 < totalConfirmedOf sta then
          some (round3 ((t.confirmed : ℚ) / (totalConfirmedOf sta : ℚ)))
        else Option.none) := by
  intro t ht
  unfold topContributorsOf at ht
  obtain ⟨it, _, rfl⟩ := List.mem_map.1 ht
  rfl

/-! ## Claim C10 -/

/-- C10: aggregation conserves every metric — the sum of confirmed
(resp. suspected, deaths) over the per-week series equals the sum of that
metric over the per-state totals — and the confirmed common value is
exactly the `totalConfirmedAllStates` denominator of `shareOfConfirmed` in
`topContributors`. -/
theorem C10_main (s e : ℤ) (states : List String) (db : List Row) :
    ((fetchWeeklyCoverageValid s e states db).weeklySeries.map
        (fun en => en.confirmed)).sum =
      ((stateTotalsArrayOf (aggregate s e states db).stateTotals).map
        (fun it => it.confirmed)).sum ∧
    ((fetchWeeklyCoverageValid s e states db).weeklySeries.map
        (fun en => en.suspected)).sum =
      ((stateTotalsArrayOf (aggregate s e states db).stateTotals).map
        (fun it => it.suspected)).sum ∧
    ((fetchWeeklyCoverageValid s e states db).weeklySeries.map
        (fun en => en.deaths)).sum =
      ((stateTotalsArrayOf (aggregate s e states db).stateTotals).map
        (fun it => it.deaths)).sum ∧
    totalConfirmedOf (stateTotalsArrayOf (aggregate s e states db).stateTotals) =
      ((fetchWeeklyCoverageValid s e states db).weeklySeries.map
        (fun en => en.confirmed)).sum ∧
    (∀ t ∈ (fetchWeeklyCoverageValid s e states db).topContributors,
      t.shareOfConfirmed =
        (if 0 < ((fetchWeeklyCoverageValid s e states db).weeklySeries.map
              (fun en => en.confirmed)).sum then
          some (round3 ((t.confirmed : ℚ) /
            (((((fetchWeeklyCoverageValid s e states db).weeklySeries.map
              (fun en => en.confirmed)).sum : ℤ)) : ℚ)))
        else Option.none)) := by
  have harr : ∀ f : Counts → ℤ,
      ((stateTotalsArrayOf (aggregate s e states db).stateTotals).map
        (fun it => f (Counts.mk it.suspected it.confirmed it.deaths))).sum =
      ((aggregate s e states db).stateTotals.map (fun p => f p.2)).sum := by
    intro f
    unfold stateTotalsArrayOf
    rw [List.map_map]
    rfl
  have hconf :
      ((fetchWeeklyCoverageValid s e states db).weeklySeries.map
        (fun en => en.confirmed)).sum =
      ((stateTotalsArrayOf (aggregate s e states db).stateTotals).map
        (fun it => it.confirmed)).sum := by
    rw [fwcv_weeklySeries,
      sum_weeklySeriesOf _ (fun c => c.confirmed) _ (fun p => rfl),
      aggregate_sums s e states db (fun c => c.confirmed) (fun a b => rfl) rfl]
    exact (harr (fun c => c.confirmed)).symm
  refine ⟨hconf, ?_, ?_, ?_, ?_⟩
  · rw [fwcv_weeklySeries,
      sum_weeklySeriesOf _ (fun c => c.suspected) _ (fun p => rfl),
      aggregate_sums s e states db (fun c => c.suspected) (fun a b => rfl) rfl]
    exact (harr (fun c => c.suspected)).symm
  · rw [fwcv_weeklySeries,
      sum_weeklySeriesOf _ (fun c => c.deaths) _ (fun p => rfl),
      aggregate_sums s e states db (fun c => c.deaths) (fun a b => rfl) rfl]
    exact (harr (fun c => c.deaths)).symm
  · rw [hconf]
    unfold totalConfirmedOf
    rw [totalConfirmedOf_eq_sum]
    ring
  · intro t ht
    have := share_topContributorsOf (stateTotalsArrayOf (aggregate s e states db).stateTotals)
      t (by rw [fwcv_topContributors] at ht; exact ht)
    rw [this]
    have heq : totalConfirmedOf (stateTotalsArrayOf (aggregate s e states db).stateTotals) =
        ((fetchWeeklyCoverageValid s e states db).weeklySeries.map
          (fun en => en.confirmed)).sum := by
      rw [hconf]
      unfold totalConfirmedOf
      rw [totalConfirmedOf_eq_sum]
      ring
    rw [heq]

/-! ## Claim C6 -/

unseal Rat.mul Rat.inv Rat.add Rat.sub in
/-- C6 (counterexample): two states with equal positive confirmed totals
(5 and 5) both appear in `topContributors`, so the list is *not* strictly
descending by `confirmed` — the sort is non-strict and ties are kept in
first-appearance order. -/
theorem C6_counterexample :
    ((fetchWeeklyCoverage (some 739250) (some 739256) []
      [⟨some 2025, some 1, some "Lagos", some 0, some 5, some 0⟩,
       ⟨some 2025, some 1, some "Ogun", some 0, some 5, some 0⟩]).topContributors.map
        (fun t => t.confirmed)) = [5, 5] ∧
    ¬ List.Pairwise (fun a b => b.confirmed < a.confirmed)
      (fetchWeeklyCoverage (some 739250) (some 739256) []
        [⟨some 2025, some 1, some "Lagos", some 0, some 5, some 0⟩,
         ⟨some 2025, some 1, some "Ogun", some 0, some 5, some 0⟩]).topContributors := by
  decide

/-- C6 (amended): `topContributors` contains exactly the states with
positive confirmed totals sorted in *non-increasing* (not strictly
decreasing) order of `confirmed`, truncated to at most 3 entries; no entry
has `confirmed = 0`; each entry's `shareOfConfirmed` is its confirmed count
divided by the sum of confirmed over *all* states' totals, rounded to 3
decimals, and omitted when that sum is not positive; every state with
positive confirmed either appears or the list is already full at 3. -/
theorem C6_main :
    (∀ sta : List StateTotal,
      (∀ t ∈ topContributorsOf sta, 0 < t.confirmed) ∧
      List.Pairwise (fun a b => b.confirmed ≤ a.confirmed) (topContributorsOf sta) ∧
      (topContributorsOf sta).length ≤ 3 ∧
      (∀ t ∈ topContributorsOf sta,
        t.shareOfConfirmed =
          (if 0 < totalConfirmedOf sta then
            some (round3 ((t.confirmed : ℚ) / (totalConfirmedOf sta : ℚ)))
          else Option.none)) ∧
      (∀ st ∈ sta, 0 < st.confirmed →
        (∃ t ∈ topContributorsOf sta, t.state = st.state ∧ t.confirmed = st.confirmed) ∨
        (topContributorsOf sta).length = 3)) ∧
    (∀ (s : ℤ) (e : ℤ) (states : List String) (db : List Row),
      (fetchWeeklyCoverageValid s e states db).topContributors =
        topContributorsOf (stateTotalsArrayOf (aggregate s e states db).stateTotals)) := by
  constructor
  · intro sta
    refine ⟨?_, ?_, ?_, share_topContributorsOf sta, ?_⟩
    · intro t ht
      unfold topContributorsOf at ht
      obtain ⟨it, hit, rfl⟩ := List.mem_map.1 ht
      have hmem : it ∈ List.insertionSort confirmedGE
          (sta.filter (fun it => 0 < it.confirmed)) := List.mem_of_mem_take hit
      have hmem2 : it ∈ sta.filter (fun it => 0 < it.confirmed) :=
        (List.perm_insertionSort confirmedGE _).subset hmem
      have := (List.mem_filter.1 hmem2).2
      exact of_decide_eq_true this
    · unfold topContributorsOf
      rw [List.pairwise_map]
      have hsorted : List.Pairwise confirmedGE
          (List.insertionSort confirmedGE (sta.filter (fun it => 0 < it.confirmed))) :=
        List.sorted_insertionSort confirmedGE _
      exact hsorted.take
    · unfold topContributorsOf
      rw [List.length_map, List.length_take]
      omega
    · intro st hst hpos
      by_cases hlen : (List.insertionSort confirmedGE
          (sta.filter (fun it => 0 < it.confirmed))).length ≤ 3
      · left
        have hfil : st ∈ sta.filter (fun it => 0 < it.confirmed) :=
          List.mem_filter.2 ⟨hst, decide_eq_true hpos⟩
        have hsrt : st ∈ List.insertionSort confirmedGE
            (sta.filter (fun it => 0 < it.confirmed)) :=
          (List.perm_insertionSort confirmedGE _).mem_iff.2 hfil
        have htake : st ∈ (List.insertionSort confirmedGE
            (sta.filter (fun it => 0 < it.confirmed))).take 3 := by
          rw [List.take_of_length_le hlen]
          exact hsrt
        refine ⟨Contributor.mk st.state st.suspected st.confirmed st.deaths
          (if 0 < totalConfirmedOf sta then
            some (round3 ((st.confirmed : ℚ) / (totalConfirmedOf sta : ℚ)))
          else Option.none), ?_, rfl, rfl⟩
        unfold topContributorsOf
        exact List.mem_map.2 ⟨st, htake, rfl⟩
      · right
        unfold topContributorsOf
        rw [List.length_map, List.length_take]
        omega
  · intro s e states db
    rfl
/-- C6 (witness): the amended completeness clause at a single positive
state. -/
theorem C6_witness :
    (∃ t ∈ topContributorsOf [StateTotal.mk "Lagos" 0 5 0],
      t.state = "Lagos" ∧ t.confirmed = 5) ∨
    (topContributorsOf [StateTotal.mk "Lagos" 0 5 0]).length = 3 :=
  (C6_main.1 [StateTotal.mk "Lagos" 0 5 0]).2.2.2.2
    (StateTotal.mk "Lagos" 0 5 0) (List.mem_singleton.2 rfl) (by decide)

/-! ## Scan-loop lemmas (alert flags) -/

theorem scan_sustained :
    ∀ (l : List (WeeklyEntry × WeeklyEntry)) (st : ScanState),
      (l.foldl scanStep st).sustained = (st.sustained || specSustained st.consec l) := by
  intro l
  induction l with
  | nil => intro st; simp [specSustained]
  | cons p rest ih =>
    intro st
    rw [List.foldl_cons]
    by_cases hp : 0 < pairDelta p
    · have hstep : scanStep st p = ScanState.mk (st.consec + 1)
          (st.sustained || decide (2 ≤ st.consec + 1))
          (match st.maxInc with
           | some (m, pw, cw) =>
             if m < pairDelta p then some (pairDelta p, p.1.week, p.2.week)
             else some (m, pw, cw)
           | none => some (pairDelta p, p.1.week, p.2.week)) st.maxDec := by
        unfold scanStep pairDelta at *
        rw [if_pos hp]
      rw [hstep, ih]
      simp only [specSustained, if_pos hp]
      cases hs : st.sustained <;> simp [Bool.or_assoc]
    · have hstep : scanStep st p = ScanState.mk 0 st.sustained st.maxInc
          (match st.maxDec with
           | some (m, pw, cw) =>
             if pairDelta p < m then some (pairDelta p, p.1.week, p.2.week)
             else some (m, pw, cw)
           | none => some (pairDelta p, p.1.week, p.2.week)) := by
        unfold scanStep pairDelta at *
        rw [if_neg hp]
      rw [hstep, ih]
      simp only [specSustained, if_neg hp]

theorem specSustained_cons (c : ℕ) (p : WeeklyEntry × WeeklyEntry)
    (rest : List (WeeklyEntry × WeeklyEntry)) :
    specSustained c (p :: rest) =
      if 0 < pairDelta p then (decide (2 ≤ c + 1) || specSustained (c + 1) rest)
      else specSustained 0 rest := rfl

theorem twoAdjPos_cons2 (p q : WeeklyEntry × WeeklyEntry)
    (rest : List (WeeklyEntry × WeeklyEntry)) :
    twoAdjPos (p :: q :: rest) =
      ((decide (0 < pairDelta p) && decide (0 < pairDelta q)) || twoAdjPos (q :: rest)) := rfl

theorem headPos_cons (p : WeeklyEntry × WeeklyEntry)
    (rest : List (WeeklyEntry × WeeklyEntry)) :
    headPos (p :: rest) = decide (0 < pairDelta p) := rfl

theorem specSustained_iff :
    ∀ (l : List (WeeklyEntry × WeeklyEntry)) (c : ℕ),
      specSustained c l = true ↔
        (headPos l = true ∧ 1 ≤ c) ∨ twoAdjPos l = true := by
  intro l
  induction l with
  | nil => intro c; simp [specSustained, headPos, twoAdjPos]
  | cons p rest ih =>
    intro c
    rw [specSustained_cons]
    by_cases hp : 0 < pairDelta p
    · rw [if_pos hp]
      rcases rest with _ | ⟨q, rest2⟩
      · simp only [Bool.or_eq_true, decide_eq_true_eq, headPos_cons, hp,
          show specSustained (c + 1) ([] : List (WeeklyEntry × WeeklyEntry)) = false from rfl,
          show twoAdjPos [p] = false from rfl]
        simp
      · rw [twoAdjPos_cons2]
        simp only [Bool.or_eq_true, Bool.and_eq_true, decide_eq_true_eq, ih (c + 1),
          headPos_cons, hp]
        have h1 : (2 ≤ c + 1) ↔ (1 ≤ c) := by omega
        have h2 : (1 ≤ c + 1) ↔ True := by
          constructor
          · intro; trivial
          · intro; omega
        rw [h1, h2]
        simp
    · rw [if_neg hp]
      rw [ih 0]
      rcases rest with _ | ⟨q, rest2⟩
      · simp [headPos, twoAdjPos, hp]
      · rw [twoAdjPos_cons2]
        simp [headPos_cons, hp]

theorem scan_consec_sustained :
    ∀ (l : List (WeeklyEntry × WeeklyEntry)) (st : ScanState),
      (2 ≤ st.consec → st.sustained = true) →
      2 ≤ (l.foldl scanStep st).consec → (l.foldl scanStep st).sustained = true := by
  intro l
  induction l with
  | nil => intro st h hc; exact h hc
  | cons p rest ih =>
    intro st h
    rw [List.foldl_cons]
    refine ih _ ?_
    unfold scanStep
    by_cases hp : 0 < p.2.confirmed - p.1.confirmed
    · rw [if_pos hp]
      intro hc
      simp only at hc ⊢
      have : 2 ≤ st.consec + 1 := hc
      simp [this]
    · rw [if_neg hp]
      intro hc
      simp at hc

/-! ## Adjacency bridges and `maxIncrease` lemmas -/

theorem exists_zip_tail_iff {α : Type} (P : α × α → Prop) :
    ∀ l : List α,
      (∃ pr ∈ l.zip l.tail, P pr) ↔ ∃ l1 l2 a b, l = l1 ++ a :: b :: l2 ∧ P (a, b) := by
  intro l
  induction l with
  | nil => simp
  | cons x rest ih =>
    rcases rest with _ | ⟨y, rest2⟩
    · simp only [List.zip_nil_right, List.tail_cons]
      constructor
      · rintro ⟨pr, hpr, _⟩
        simp at hpr
      · rintro ⟨l1, l2, a, b, heq, _⟩
        have := congrArg List.length heq
        simp at this
        omega
    · rw [show (x :: y :: rest2).zip (x :: y :: rest2).tail =
        (x, y) :: ((y :: rest2).zip (y :: rest2).tail) from rfl]
      constructor
      · rintro ⟨pr, hpr, hP⟩
        rcases List.mem_cons.1 hpr with rfl | hpr2
        · exact ⟨[], rest2, x, y, rfl, hP⟩
        · obtain ⟨l1, l2, a, b, heq, hab⟩ := (ih).1 ⟨pr, hpr2, hP⟩
          exact ⟨x :: l1, l2, a, b, by rw [List.cons_append, ← heq], hab⟩
      · rintro ⟨l1, l2, a, b, heq, hab⟩
        rcases l1 with _ | ⟨w, l1'⟩
        · simp only [List.nil_append, List.cons.injEq] at heq
          obtain ⟨rfl, rfl, _⟩ := heq
          exact ⟨(x, y), List.mem_cons_self _ _, hab⟩
        · simp only [List.cons_append, List.cons.injEq] at heq
          obtain ⟨rfl, heq2⟩ := heq
          obtain ⟨pr, hpr, hP⟩ := (ih).2 ⟨l1', l2, a, b, heq2, hab⟩
          exact ⟨pr, List.mem_cons_of_mem _ hpr, hP⟩

theorem twoAdjPos_iff :
    ∀ series : List WeeklyEntry,
      twoAdjPos (series.zip series.tail) = true ↔
        ∃ l1 l2 a b c, series = l1 ++ a :: b :: c :: l2 ∧
          a.confirmed < b.confirmed ∧ b.confirmed < c.confirmed := by
  intro series
  induction series with
  | nil => simp [twoAdjPos]
  | cons x rest ih =>
    rcases rest with _ | ⟨y, rest2⟩
    · simp only [List.zip_nil_right, List.tail_cons, show twoAdjPos [] = false from rfl]
      constructor
      · intro h; cases h
      · rintro ⟨l1, l2, a, b, c, heq, _⟩
        have := congrArg List.length heq
        simp at this
        omega
    · rcases rest2 with _ | ⟨z, t⟩
      · rw [show (x :: [y]).zip (x :: [y]).tail = [(x, y)] from rfl]
        rw [show twoAdjPos [(x, y)] = false from rfl]
        constructor
        · intro h; cases h
        · rintro ⟨l1, l2, a, b, c, heq, _⟩
          have := congrArg List.length heq
          simp at this
          omega
      · rw [show (x :: y :: z :: t).zip (x :: y :: z :: t).tail =
          (x, y) :: ((y :: z :: t).zip (y :: z :: t).tail) from rfl]
        rw [show ((y :: z :: t).zip (y :: z :: t).tail) =
          (y, z) :: ((z :: t).zip (z :: t).tail) from rfl]
        rw [twoAdjPos_cons2]
        rw [show ((y, z) :: ((z :: t).zip (z :: t).tail)) =
          ((y :: z :: t).zip (y :: z :: t).tail) from rfl]
        simp only [Bool.or_eq_true, Bool.and_eq_true, decide_eq_true_eq, ih, pairDelta]
        constructor
        · rintro (⟨h1, h2⟩ | ⟨l1, l2, a, b, c, heq, hab, hbc⟩)
          · exact ⟨[], t, x, y, z, rfl, by omega, by omega⟩
          · exact ⟨x :: l1, l2, a, b, c, by rw [List.cons_append, ← heq], hab, hbc⟩
        · rintro ⟨l1, l2, a, b, c, heq, hab, hbc⟩
          rcases l1 with _ | ⟨w, l1'⟩
          · simp only [List.nil_append, List.cons.injEq] at heq
            obtain ⟨rfl, rfl, rfl, _⟩ := heq
            exact Or.inl ⟨by omega, by omega⟩
          · simp only [List.cons_append, List.cons.injEq] at heq
            obtain ⟨rfl, heq2⟩ := heq
            exact Or.inr ⟨l1', l2, a, b, c, heq2, hab, hbc⟩

theorem exists_pair_cons {k : ℤ} {p : WeeklyEntry × WeeklyEntry}
    {rest : List (WeeklyEntry × WeeklyEntry)} :
    (∃ pr ∈ rest, k ≤ pairDelta pr) → ∃ pr ∈ p :: rest, k ≤ pairDelta pr := by
  rintro ⟨pr, hpr, hle⟩
  exact ⟨pr, List.mem_cons_of_mem _ hpr, hle⟩

theorem scanStep_maxInc_pos (st : ScanState) (p : WeeklyEntry × WeeklyEntry)
    (hp : 0 < pairDelta p) :
    (scanStep st p).maxInc =
      (match st.maxInc with
       | some (m, pw, cw) =>
         if m < pairDelta p then some (pairDelta p, p.1.week, p.2.week)
         else some (m, pw, cw)
       | none => some (pairDelta p, p.1.week, p.2.week)) := by
  unfold scanStep pairDelta at *
  rw [if_pos hp]

theorem scanStep_maxInc_neg (st : ScanState) (p : WeeklyEntry × WeeklyEntry)
    (hp : ¬ 0 < pairDelta p) :
    (scanStep st p).maxInc = st.maxInc := by
  unfold scanStep pairDelta at *
  rw [if_neg hp]

theorem exists_some_triple {d : ℤ} {w1 w2 : WeekKey} {k : ℤ} :
    (∃ m pw cw, (some (d, w1, w2) : Option (ℤ × WeekKey × WeekKey)) = some (m, pw, cw) ∧
      k ≤ m) ↔ k ≤ d := by
  constructor
  · rintro ⟨m, pw, cw, h, hk⟩
    injection h with h2
    rw [show m = d from (congrArg Prod.fst h2).symm] at hk
    exact hk
  · intro h
    exact ⟨d, w1, w2, rfl, h⟩

theorem exists_none_triple {k : ℤ} :
    (∃ m pw cw, (Option.none : Option (ℤ × WeekKey × WeekKey)) = some (m, pw, cw) ∧
      k ≤ m) ↔ False := by
  simp

theorem exists_pair_cons_iff {k : ℤ} {p : WeeklyEntry × WeeklyEntry}
    {rest : List (WeeklyEntry × WeeklyEntry)} :
    (∃ pr ∈ p :: rest, k ≤ pairDelta pr) ↔
      k ≤ pairDelta p ∨ ∃ pr ∈ rest, k ≤ pairDelta pr := by
  constructor
  · rintro ⟨pr, hpr, hle⟩
    rcases List.mem_cons.1 hpr with rfl | h2
    · exact Or.inl hle
    · exact Or.inr ⟨pr, h2, hle⟩
  · rintro (h | ⟨pr, hpr, hle⟩)
    · exact ⟨p, List.mem_cons_self _ _, h⟩
    · exact ⟨pr, List.mem_cons_of_mem _ hpr, hle⟩

theorem scan_maxInc_ge (k : ℤ) (hk : 0 < k) :
    ∀ (l : List (WeeklyEntry × WeeklyEntry)) (st : ScanState),
      ((∃ m pw cw, (l.foldl scanStep st).maxInc = some (m, pw, cw) ∧ k ≤ m) ↔
        ((∃ m pw cw, st.maxInc = some (m, pw, cw) ∧ k ≤ m) ∨
          ∃ pr ∈ l, k ≤ pairDelta pr)) := by
  intro l
  induction l with
  | nil => intro st; simp
  | cons p rest ih =>
    intro st
    rw [List.foldl_cons, ih, exists_pair_cons_iff]
    by_cases hp : 0 < pairDelta p
    · rw [scanStep_maxInc_pos st p hp]
      rcases hm : st.maxInc with _ | ⟨⟨m0, pw0, cw0⟩⟩
      · simp only [hm, exists_none_triple, exists_some_triple, false_or]
      · simp only [hm, exists_some_triple]
        split <;> rename_i hcmp <;> simp only [exists_some_triple]
        · constructor
          · rintro (h | h)
            · exact Or.inr (Or.inl h)
            · exact Or.inr (Or.inr h)
          · rintro (h | h | h)
            · exact Or.inl (by omega)
            · exact Or.inl h
            · exact Or.inr h
        · constructor
          · rintro (h | h)
            · exact Or.inl h
            · exact Or.inr (Or.inr h)
          · rintro (h | h | h)
            · exact Or.inl h
            · exact Or.inl (by omega)
            · exact Or.inr h
    · rw [scanStep_maxInc_neg st p hp]
      have hnd : ¬ k ≤ pairDelta p := by omega
      constructor
      · rintro (h | h)
        · exact Or.inl h
        · exact Or.inr (Or.inr h)
      · rintro (h | h | h)
        · exact Or.inl h
        · exact absurd h hnd
        · exact Or.inr h

/-! ## Claim C5 -/

theorem alertFlagsOf_spec (ratioQ : Option ℚ) (series : List WeeklyEntry) :
    ((alertFlagsOf ratioQ series).incompleteReporting = true ↔
      ∃ q : ℚ, ratioQ = some q ∧ q < 3 / 4) ∧
    ((alertFlagsOf ratioQ series).sustainedGrowth = true ↔
      ∃ l1 l2 a b c, series = l1 ++ a :: b :: c :: l2 ∧
        a.confirmed < b.confirmed ∧ b.confirmed < c.confirmed) ∧
    ((alertFlagsOf ratioQ series).sharpSpike = true ↔
      ∃ l1 l2 a b, series = l1 ++ a :: b :: l2 ∧ 25 ≤ b.confirmed - a.confirmed) ∧
    ((alertFlagsOf ratioQ series).elevatedDeaths = true ↔
      ∃ en ∈ series, 5 ≤ en.deaths) := by
  refine ⟨?_, ?_, ?_, ?_⟩
  · show (match ratioQ with
      | some q => decide (q < 3 / 4)
      | none => false) = true ↔ _
    rcases ratioQ with _ | q0
    · simp
    · simp
  · show ((scanOf series).sustained || decide (2 ≤ (scanOf series).consec)) = true ↔ _
    have hsust : (scanOf series).sustained =
        specSustained 0 (series.zip series.tail) := by
      unfold scanOf
      rw [scan_sustained]
      rfl
    rw [← twoAdjPos_iff]
    constructor
    · intro h
      rw [Bool.or_eq_true] at h
      rcases h with h1 | h2
      · have := (specSustained_iff _ 0).1 (hsust ▸ h1)
        rcases this with ⟨_, hc⟩ | h3
        · omega
        · exact h3
      · have hcons := scan_consec_sustained (series.zip series.tail) ScanState.init
          (by intro hc; exact absurd hc (by simp [ScanState.init]))
          (of_decide_eq_true h2)
        have := (specSustained_iff _ 0).1 (hsust ▸ hcons)
        rcases this with ⟨_, hc⟩ | h3
        · omega
        · exact h3
    · intro h
      rw [Bool.or_eq_true]
      refine Or.inl ?_
      rw [hsust]
      exact (specSustained_iff _ 0).2 (Or.inr h)
  · show (match (scanOf series).maxInc with
      | some (m, _, _) => decide (0 < m) && decide (25 ≤ m)
      | none => false) = true ↔ _
    have hiff : (match (scanOf series).maxInc with
        | some (m, _, _) => decide (0 < m) && decide (25 ≤ m)
        | none => false) = true ↔
        ∃ m pw cw, (scanOf series).maxInc = some (m, pw, cw) ∧ (25 : ℤ) ≤ m := by
      rcases hmi : (scanOf series).maxInc with _ | ⟨⟨m, pw, cw⟩⟩
      · simp
      · simp only [Bool.and_eq_true, decide_eq_true_eq, exists_some_triple]
        omega
    rw [hiff]
    unfold scanOf
    rw [scan_maxInc_ge 25 (by omega)]
    rw [show (ScanState.init.maxInc = Option.none) from rfl, exists_none_triple, false_or]
    rw [exists_zip_tail_iff (fun pr => (25 : ℤ) ≤ pairDelta pr) series]
    unfold pairDelta
    constructor
    · rintro ⟨l1, l2, a, b, h, hle⟩
      exact ⟨l1, l2, a, b, h, hle⟩
    · rintro ⟨l1, l2, a, b, h, hle⟩
      exact ⟨l1, l2, a, b, h, hle⟩
  · show series.any (fun en => 5 ≤ en.deaths) = true ↔ _
    simp [List.any_eq_true]

theorem result_alertFlags (startISO endISO : Option ℤ) (states : List String)
    (db : List Row) :
    (fetchWeeklyCoverage startISO endISO states db).alertFlags =
      alertFlagsOf (fetchWeeklyCoverage startISO endISO states db).coverageRatioQ
        (fetchWeeklyCoverage startISO endISO states db).weeklySeries := by
  rcases startISO with _ | s
  · cases endISO <;> rfl
  · rcases endISO with _ | e
    · rfl
    · by_cases h : e < s
      · simp [fetchWeeklyCoverage, h]
        rfl
      · rw [fetchWeeklyCoverage_valid (by omega)]
        exact fwcv_alertFlags s e states db

/-- C5: each alert flag of the returned result holds exactly under its
defining condition over the returned global weekly series:
`incompleteReporting` iff the returned (rounded) coverage ratio is non-null
and below 0.75; `sustainedGrowth` iff some three consecutive series entries
strictly increase in confirmed count (two consecutive positive deltas);
`sharpSpike` iff some adjacent pair increases by at least 25 confirmed;
`elevatedDeaths` iff some single week's summed deaths reach 5. -/
theorem C5_main (startISO endISO : Option ℤ) (states : List String) (db : List Row) :
    ((fetchWeeklyCoverage startISO endISO states db).alertFlags.incompleteReporting = true ↔
      ∃ q : ℚ, (fetchWeeklyCoverage startISO endISO states db).coverageRatioQ = some q ∧
        q < 3 / 4) ∧
    ((fetchWeeklyCoverage startISO endISO states db).alertFlags.sustainedGrowth = true ↔
      ∃ l1 l2 a b c, (fetchWeeklyCoverage startISO endISO states db).weeklySeries =
          l1 ++ a :: b :: c :: l2 ∧
        a.confirmed < b.confirmed ∧ b.confirmed < c.confirmed) ∧
    ((fetchWeeklyCoverage startISO endISO states db).alertFlags.sharpSpike = true ↔
      ∃ l1 l2 a b, (fetchWeeklyCoverage startISO endISO states db).weeklySeries =
          l1 ++ a :: b :: l2 ∧
        25 ≤ b.confirmed - a.confirmed) ∧
    ((fetchWeeklyCoverage startISO endISO states db).alertFlags.elevatedDeaths = true ↔
      ∃ en ∈ (fetchWeeklyCoverage startISO endISO states db).weeklySeries,
        5 ≤ en.deaths) := by
  rw [result_alertFlags]
  exact alertFlagsOf_spec _ _

/-! ## `bestGrowth` lemmas -/

theorem growthStep_isSome (acc : Option (ℤ × WeekKey))
    (pr : (WeekKey × Counts) × (WeekKey × Counts)) :
    ∃ m wk, growthStep acc pr = some (m, wk) := by
  unfold growthStep
  rcases acc with _ | ⟨⟨m1, w1⟩⟩
  · exact ⟨_, _, rfl⟩
  · simp only
    split
    · exact ⟨_, _, rfl⟩
    · exact ⟨_, _, rfl⟩

theorem foldl_growthStep_some :
    ∀ (pairs : List ((WeekKey × Counts) × (WeekKey × Counts))) (x : ℤ × WeekKey),
      pairs.foldl growthStep (some x) ≠ Option.none := by
  intro pairs
  induction pairs with
  | nil => intro x h; cases h
  | cons p rest ih =>
    intro x
    rw [List.foldl_cons]
    obtain ⟨m, wk, hstep⟩ := growthStep_isSome (some x) p
    rw [hstep]
    exact ih (m, wk)

theorem bestGrowth_none_iff (l : List (WeekKey × Counts)) :
    bestGrowth l = Option.none ↔ l.zip l.tail = [] := by
  unfold bestGrowth
  rcases hz : l.zip l.tail with _ | ⟨p, rest⟩
  · simp
  · rw [List.foldl_cons]
    obtain ⟨m, wk, hstep⟩ := growthStep_isSome Option.none p
    rw [hstep]
    constructor
    · intro h
      exact absurd h (foldl_growthStep_some rest (m, wk))
    · intro h
      cases h

theorem foldl_growthStep_spec :
    ∀ (pairs : List ((WeekKey × Counts) × (WeekKey × Counts)))
      (acc : Option (ℤ × WeekKey)) (m : ℤ) (wk : WeekKey),
      pairs.foldl growthStep acc = some (m, wk) →
      ((acc = some (m, wk) ∨
        ∃ pr ∈ pairs, pr.2.2.confirmed - pr.1.2.confirmed = m ∧ pr.2.1 = wk) ∧
       (∀ pr ∈ pairs, pr.2.2.confirmed - pr.1.2.confirmed ≤ m) ∧
       (∀ m0 wk0, acc = some (m0, wk0) → m0 ≤ m)) := by
  intro pairs
  induction pairs with
  | nil =>
    intro acc m wk h
    rw [List.foldl_nil] at h
    refine ⟨Or.inl h, by simp, ?_⟩
    intro m0 wk0 h0
    rw [h] at h0
    injection h0 with h1
    rw [show m0 = m from (congrArg Prod.fst h1).symm]
  | cons p rest ih =>
    intro acc m wk h
    rw [List.foldl_cons] at h
    obtain ⟨hwit, hbound, hcarry⟩ := ih (growthStep acc p) m wk h
    have hstep_ge : ∀ m1 wk1, growthStep acc p = some (m1, wk1) →
        p.2.2.confirmed - p.1.2.confirmed ≤ m1 := by
      intro m1 wk1 hs
      unfold growthStep at hs
      rcases acc with _ | ⟨⟨m2, w2⟩⟩
      · simp only at hs
        injection hs with h1
        have := congrArg Prod.fst h1
        simp at this
        omega
      · simp only at hs
        split at hs <;> rename_i hlt <;> injection hs with h1 <;>
          have := congrArg Prod.fst h1 <;> simp at this <;> omega
    have hstep_carry : ∀ m0 wk0, acc = some (m0, wk0) →
        ∀ m1 wk1, growthStep acc p = some (m1, wk1) → m0 ≤ m1 := by
      intro m0 wk0 h0 m1 wk1 hs
      rw [h0] at hs
      unfold growthStep at hs
      simp only at hs
      split at hs <;> injection hs with h1 <;>
        have := congrArg Prod.fst h1 <;> simp at this <;> omega
    obtain ⟨ms, wks, hsome⟩ := growthStep_isSome acc p
    refine ⟨?_, ?_, ?_⟩
    · rcases hwit with hacc | ⟨pr, hpr, hd⟩
      · rw [hsome] at hacc
        injection hacc with h1
        have e1 : ms = m := congrArg Prod.fst h1
        have e2 : wks = wk := congrArg Prod.snd h1
        unfold growthStep at hsome
        rcases hacc2 : acc with _ | ⟨⟨m2, w2⟩⟩
        · right
          refine ⟨p, List.mem_cons_self _ _, ?_⟩
          rw [hacc2] at hsome
          simp only at hsome
          injection hsome with h2
          have e3 : p.2.2.confirmed - p.1.2.confirmed = ms := congrArg Prod.fst h2
          have e4 : p.2.1 = wks := congrArg Prod.snd h2
          exact ⟨by rw [e3, e1], by rw [e4, e2]⟩
        · rw [hacc2] at hsome
          simp only at hsome
          split at hsome <;> rename_i hlt
          · right
            refine ⟨p, List.mem_cons_self _ _, ?_⟩
            injection hsome with h2
            have e3 : p.2.2.confirmed - p.1.2.confirmed = ms := congrArg Prod.fst h2
            have e4 : p.2.1 = wks := congrArg Prod.snd h2
            exact ⟨by rw [e3, e1], by rw [e4, e2]⟩
          · left
            injection hsome with h2
            have e3 : m2 = ms := congrArg Prod.fst h2
            have e4 : w2 = wks := congrArg Prod.snd h2
            rw [show m2 = m from by rw [e3, e1],
              show w2 = wk from by rw [e4, e2]]
      · exact Or.inr ⟨pr, List.mem_cons_of_mem _ hpr, hd⟩
    · intro pr hpr
      rcases List.mem_cons.1 hpr with rfl | hpr2
      · have h1 := hstep_ge ms wks hsome
        have h2 := hcarry ms wks hsome
        omega
      · exact hbound pr hpr2
    · intro m0 wk0 h0
      have h1 := hstep_carry m0 wk0 h0 ms wks hsome
      have h2 := hcarry ms wks hsome
      omega

theorem bestGrowth_spec (l : List (WeekKey × Counts)) (m : ℤ) (wk : WeekKey)
    (h : bestGrowth l = some (m, wk)) :
    (∃ pr ∈ l.zip l.tail, pr.2.2.confirmed - pr.1.2.confirmed = m ∧ pr.2.1 = wk) ∧
    (∀ pr ∈ l.zip l.tail, pr.2.2.confirmed - pr.1.2.confirmed ≤ m) := by
  obtain ⟨hwit, hbound, _⟩ := foldl_growthStep_spec (l.zip l.tail) Option.none m wk h
  refine ⟨?_, hbound⟩
  rcases hwit with hacc | hw
  · cases hacc
  · exact hw

/-! ## Claim C7 -/

unseal Rat.mul Rat.inv Rat.add Rat.sub in
/-- C7: `fastestGrowers` holds at most 3 entries, sorted non-increasingly by
`weekOverWeekChange`; every entry has a strictly positive change equal to
the *maximum* consecutive pairwise confirmed delta of that state's
chronologically sorted weekly series, realised at the reported week; every
state whose maximum delta is positive either appears or the list is full;
the result field is exactly this computation; and in the quoted scenario a
state going 10 → 40 across consecutive weeks appears with
`weekOverWeekChange = 30`. -/
theorem C7_main :
    (∀ swt : List (String × List (WeekKey × Counts)),
      (fastestGrowersOf swt).length ≤ 3 ∧
      List.Pairwise (fun a b => b.weekOverWeekChange ≤ a.weekOverWeekChange)
        (fastestGrowersOf swt) ∧
      (∀ g ∈ fastestGrowersOf swt,
        0 < g.weekOverWeekChange ∧
        ∃ wm, (g.state, wm) ∈ swt ∧ ∃ wk, g.week = some wk ∧
          bestGrowth (List.insertionSort entryKeyLE wm) =
            some (g.weekOverWeekChange, wk) ∧
          (∃ pr ∈ (List.insertionSort entryKeyLE wm).zip
              (List.insertionSort entryKeyLE wm).tail,
            pr.2.2.confirmed - pr.1.2.confirmed = g.weekOverWeekChange ∧ pr.2.1 = wk) ∧
          (∀ pr ∈ (List.insertionSort entryKeyLE wm).zip
              (List.insertionSort entryKeyLE wm).tail,
            pr.2.2.confirmed - pr.1.2.confirmed ≤ g.weekOverWeekChange)) ∧
      (∀ p ∈ swt, ∀ (m : ℤ) (wk : WeekKey),
        bestGrowth (List.insertionSort entryKeyLE p.2) = some (m, wk) → 0 < m →
        (∃ g ∈ fastestGrowersOf swt, g.state = p.1) ∨
          (fastestGrowersOf swt).length = 3)) ∧
    (∀ (s e : ℤ) (states : List String) (db : List Row),
      (fetchWeeklyCoverageValid s e states db).fastestGrowers =
        fastestGrowersOf (aggregate s e states db).stateWeeklyTotals) ∧
    (fetchWeeklyCoverage (some 739250) (some 739263) []
      [⟨some 2025, some 1, some "Lagos", some 0, some 10, some 0⟩,
       ⟨some 2025, some 2, some "Lagos", some 0, some 40, some 0⟩]).fastestGrowers =
      [⟨"Lagos", some ⟨2025, 2⟩, 30⟩] := by
  refine ⟨?_, fun s e states db => rfl, by decide⟩
  intro swt
  refine ⟨?_, ?_, ?_, ?_⟩
  · unfold fastestGrowersOf
    rw [List.length_take]
    omega
  · unfold fastestGrowersOf
    exact (List.sorted_insertionSort changeGE _).take
  · intro g hg
    unfold fastestGrowersOf at hg
    have hsort : g ∈ List.insertionSort changeGE
        (swt.filterMap (fun p =>
          match bestGrowth (List.insertionSort entryKeyLE p.2) with
          | some (m, wk) =>
            if 0 < m then some (Grower.mk p.1 (some wk) m) else Option.none
          | none => Option.none)) := List.mem_of_mem_take hg
    have hfm := (List.perm_insertionSort changeGE _).subset hsort
    obtain ⟨a, ha, hfa⟩ := List.mem_filterMap.1 hfm
    rcases hbg : bestGrowth (List.insertionSort entryKeyLE a.2) with _ | ⟨⟨m, wk⟩⟩ <;>
      rw [hbg] at hfa
    · have hfa2 : (Option.none : Option Grower) = some g := hfa
      cases hfa2
    · have hfa2 : (if 0 < m then some (Grower.mk a.1 (some wk) m) else Option.none) =
        some g := hfa
      split at hfa2 <;> rename_i hm
      · injection hfa2 with hga
        obtain ⟨hwit, hbound⟩ := bestGrowth_spec _ _ _ hbg
        subst hga
        refine ⟨hm, a.2, ?_, wk, rfl, hbg, hwit, hbound⟩
        simpa using ha
      · cases hfa2
  · intro p hp m wk hbg hm
    have hmem : Grower.mk p.1 (some wk) m ∈
        swt.filterMap (fun p =>
          match bestGrowth (List.insertionSort entryKeyLE p.2) with
          | some (m, wk) =>
            if 0 < m then some (Grower.mk p.1 (some wk) m) else Option.none
          | none => Option.none) := by
      refine List.mem_filterMap.2 ⟨p, hp, ?_⟩
      rw [hbg]
      show (if 0 < m then some (Grower.mk p.1 (some wk) m) else Option.none) =
        some (Grower.mk p.1 (some wk) m)
      rw [if_pos hm]
    have hsort : Grower.mk p.1 (some wk) m ∈ List.insertionSort changeGE
        (swt.filterMap (fun p =>
          match bestGrowth (List.insertionSort entryKeyLE p.2) with
          | some (m, wk) =>
            if 0 < m then some (Grower.mk p.1 (some wk) m) else Option.none
          | none => Option.none)) :=
      (List.perm_insertionSort changeGE _).mem_iff.2 hmem
    by_cases hlen : (List.insertionSort changeGE
        (swt.filterMap (fun p =>
          match bestGrowth (List.insertionSort entryKeyLE p.2) with
          | some (m, wk) =>
            if 0 < m then some (Grower.mk p.1 (some wk) m) else Option.none
          | none => Option.none))).length ≤ 3
    · left
      refine ⟨Grower.mk p.1 (some wk) m, ?_, rfl⟩
      unfold fastestGrowersOf
      rw [List.take_of_length_le hlen]
      exact hsort
    · right
      unfold fastestGrowersOf
      rw [List.length_take]
      omega

/-- C7 (witness): the completeness clause at a concrete one-state map with
a positive maximum delta. -/
theorem C7_witness :
    (∃ g ∈ fastestGrowersOf
      [("Lagos", [(WeekKey.mk 2025 1, Counts.mk 0 10 0),
                  (WeekKey.mk 2025 2, Counts.mk 0 40 0)])],
      g.state = "Lagos") ∨
    (fastestGrowersOf
      [("Lagos", [(WeekKey.mk 2025 1, Counts.mk 0 10 0),
                  (WeekKey.mk 2025 2, Counts.mk 0 40 0)])]).length = 3 :=
  (C7_main.1 [("Lagos", [(WeekKey.mk 2025 1, Counts.mk 0 10 0),
      (WeekKey.mk 2025 2, Counts.mk 0 40 0)])]).2.2.2
    ("Lagos", [(WeekKey.mk 2025 1, Counts.mk 0 10 0),
      (WeekKey.mk 2025 2, Counts.mk 0 40 0)])
    (List.mem_singleton.2 rfl) 30 (WeekKey.mk 2025 2) (by decide) (by decide)

unseal Rat.mul Rat.inv Rat.add Rat.sub in
/-- C5 (witness): Scenario D — three consecutive weeks with strictly
increasing global confirmed totals set `sustainedGrowth`. -/
theorem C5_witness :
    (fetchWeeklyCoverage (some 739250) (some 739270) []
      [⟨some 2025, some 1, some "Abia", some 0, some 1, some 0⟩,
       ⟨some 2025, some 2, some "Abia", some 0, some 2, some 0⟩,
       ⟨some 2025, some 3, some "Abia", some 0, some 3, some 0⟩]).alertFlags.sustainedGrowth
      = true :=
  (C5_main (some 739250) (some 739270) []
    [⟨some 2025, some 1, some "Abia", some 0, some 1, some 0⟩,
     ⟨some 2025, some 2, some "Abia", some 0, some 2, some 0⟩,
     ⟨some 2025, some 3, some "Abia", some 0, some 3, some 0⟩]).2.1.2
    ⟨[], [], WeeklyEntry.mk ⟨2025, 1⟩ 0 1 0, WeeklyEntry.mk ⟨2025, 2⟩ 0 2 0,
      WeeklyEntry.mk ⟨2025, 3⟩ 0 3 0, by decide, by decide, by decide⟩

unseal Rat.mul Rat.inv Rat.add Rat.sub in
/-- C10 (witness): the share-denominator clause at the one-row 2024-W01
scenario, where the weekly-series confirmed sum is 2 and Lagos's share is
2/2 = 1. -/
theorem C10_witness :
    (Contributor.mk "Lagos" 10 2 0 (some 1)).shareOfConfirmed =
      (if 0 < ((fetchWeeklyCoverageValid 738886 738892 []
            [⟨some 2024, some 1, some "Lagos", some 10, some 2, some 0⟩]).weeklySeries.map
          (fun en => en.confirmed)).sum then
        some (round3 (((Contributor.mk "Lagos" 10 2 0 (some 1)).confirmed : ℚ) /
          (((((fetchWeeklyCoverageValid 738886 738892 []
            [⟨some 2024, some 1, some "Lagos", some 10, some 2, some 0⟩]).weeklySeries.map
            (fun en => en.confirmed)).sum : ℤ)) : ℚ)))
      else Option.none) :=
  (C10_main 738886 738892 []
    [⟨some 2024, some 1, some "Lagos", some 10, some 2, some 0⟩]).2.2.2.2
    (Contributor.mk "Lagos" 10 2 0 (some 1)) (by decide)
